import Mathlib

/-!
Verification of the Huffman compressor in `src/main.cpp` (File-Zipper).

The C++ program builds a frequency map over the input bytes, builds a Huffman
tree with a min-heap (`std::priority_queue` with `Compare`), generates the
code table by recursive traversal (`generateCodes`), encodes the input by
concatenating codes, and decodes by walking the tree bit by bit.

Shallow embedding choices:
* `NodeRef` models `shared_ptr<HuffmanNode>`: either the null pointer or a
  node with fields `data`, `freq`, `left`, `right` (exactly the C++ struct).
* bytes are `Nat` (value 0..255), bit strings are `List Char` of the
  characters a C++ `std::string` of "0"/"1" holds.
* the `unordered_map` values are association lists with unique keys;
  `operator[]`-assignment is `setCode`, `operator[]`-read is `codeOf`
  (defaulting to the empty string, as `unordered_map` does).
* the priority queue is modelled as a list kept sorted by `freq` (ascending);
  extraction of the two minima takes the two head elements.  The C++ heap also
  always extracts elements of minimal frequency; the order among equal
  frequencies is unspecified in C++, and the model fixes one deterministic
  choice (`insertByFreq` places a new element after all elements of smaller
  or equal frequency).
* a step of the decode loop that would dereference a null pointer in C++
  (`currentNode->left` / `next->isLeaf()` on null) is modelled as `none`.
* the header / bit-packer component described by the spec does not exist in
  `src/` (the demo never persists anything); the definitions marked
  "Modelled from the spec" below follow the spec text (§4.4, §6).
-/

namespace FileZipper

/-- Model of `shared_ptr<HuffmanNode>`: the null pointer, or a `HuffmanNode`
with its four fields `data`, `freq`, `left`, `right`. -/
inductive NodeRef where
  | null : NodeRef
  | node (data : Nat) (freq : Nat) (left : NodeRef) (right : NodeRef) : NodeRef
deriving DecidableEq, Repr

namespace NodeRef

/-- Field access `p->freq` (call sites only use it on non-null pointers). -/
def freq : NodeRef → Nat
  | .null => 0
  | .node _ f _ _ => f

/-- Field access `p->data`. -/
def dataOf : NodeRef → Nat
  | .null => 0
  | .node d _ _ _ => d

/-- The C++ `isLeaf` test `!left && !right`. -/
def isLeafB : NodeRef → Bool
  | .null => false
  | .node _ _ l r => if l = NodeRef.null ∧ r = NodeRef.null then true else false

/-- The leaf constructor `HuffmanNode(char data, int freq)`. -/
def mkLeaf (d f : Nat) : NodeRef := .node d f .null .null

/-- The internal-node constructor
`HuffmanNode(l, r) : data('\0'), freq(l->freq + r->freq), left(l), right(r)`. -/
def mkInternal (l r : NodeRef) : NodeRef := .node 0 (l.freq + r.freq) l r

/-- Leaf data values of the (sub)tree, in left-to-right order. -/
def datas : NodeRef → List Nat
  | .null => []
  | .node d _ l r =>
    if l = NodeRef.null ∧ r = NodeRef.null then [d] else datas l ++ datas r

/-- Depth of the unique leaf carrying data value `a`, if present. -/
def depthOfData : NodeRef → Nat → Option Nat
  | .null, _ => none
  | .node d _ l r, a =>
    if l = NodeRef.null ∧ r = NodeRef.null then
      (if a = d then some 0 else none)
    else
      match depthOfData l a with
      | some k => some (k + 1)
      | none =>
        match depthOfData r a with
        | some k => some (k + 1)
        | none => none

/-- Root-to-leaf path ('0' = left, '1' = right) to the leaf with data `a`
(meaningful when `a ∈ datas t`). -/
def pathToLeaf : NodeRef → Nat → List Char
  | .null, _ => []
  | .node _ _ l r, a =>
    if l = NodeRef.null ∧ r = NodeRef.null then []
    else if a ∈ datas l then '0' :: pathToLeaf l a
    else '1' :: pathToLeaf r a

/-- Full-binary-tree well-formedness: every node has either no children
(a leaf) or two non-null children whose frequencies sum to its own. -/
def wf : NodeRef → Bool
  | .null => false
  | .node _ f l r =>
    if l = NodeRef.null ∧ r = NodeRef.null then true
    else if l ≠ NodeRef.null ∧ r ≠ NodeRef.null then
      (f = l.freq + r.freq : Bool) && wf l && wf r
    else false

end NodeRef

open NodeRef

/-- Assignment `huffmanCodes[k] = v` of the C++ `unordered_map<char,string>`:
overwrite if the key is present, insert otherwise. -/
def setCode (m : List (Nat × List Char)) (k : Nat) (v : List Char) :
    List (Nat × List Char) :=
  if (m.lookup k).isSome then
    m.map (fun p => if p.1 = k then (k, v) else p)
  else m ++ [(k, v)]

/-- The C++ `generateCodes(node, code, huffmanCodes)`: return on null, store
the code at a leaf (with the single-character special case turning the empty
code into "0"), otherwise recurse left with '0' appended and right with '1'
appended, threading the map through. -/
def generateCodes : NodeRef → List Char → List (Nat × List Char) →
    List (Nat × List Char)
  | .null, _, m => m
  | .node d _ l r, code, m =>
    if l = NodeRef.null ∧ r = NodeRef.null then
      (if code = [] then setCode m d ['0'] else setCode m d code)
    else
      generateCodes r (code ++ ['1']) (generateCodes l (code ++ ['0']) m)

/-- Read `huffmanCodes[c]` in the encode loop: a missing key yields the
default-constructed empty string. -/
def codeOf (m : List (Nat × List Char)) (c : Nat) : List Char :=
  (m.lookup c).getD []

/-- The frequency map `freqMap` as a list of (byte, count) pairs for the
distinct bytes present, in ascending byte order (one fixed iteration order
standing in for the unspecified `unordered_map` order). -/
def freqPairs (text : List Nat) : List (Nat × Nat) :=
  (List.range 256).filterMap
    (fun b => if 0 < text.count b then some (b, text.count b) else none)

/-- One leaf per (byte, frequency) pair, as pushed into the priority queue. -/
def initialLeaves (fm : List (Nat × Nat)) : List NodeRef :=
  fm.map (fun p => mkLeaf p.1 p.2)

/-- Insertion into the sorted-list model of the min-heap: the new element goes
after every element of smaller or equal frequency. -/
def insertByFreq (x : NodeRef) : List NodeRef → List NodeRef
  | [] => [x]
  | y :: l => if y.freq ≤ x.freq then y :: insertByFreq x l else x :: y :: l

/-- Sorting the initial leaves by frequency (building the heap). -/
def sortForest : List NodeRef → List NodeRef
  | [] => []
  | x :: l => insertByFreq x (sortForest l)

/-- The body of the tree-building loop, with an explicit iteration budget
(the loop runs at most `length - 1` times, so a budget of the initial length
is always enough; the budget only makes the recursion structural). -/
def buildLoopF : Nat → List NodeRef → List NodeRef
  | _, [] => []
  | _, [t] => [t]
  | 0, F => F
  | n + 1, t1 :: t2 :: l => buildLoopF n (insertByFreq (mkInternal t1 t2) l)

/-- The tree-building loop `while (pq.size() > 1)`: extract the two
minimum-frequency nodes, push their combination, repeat. -/
def buildLoop (F : List NodeRef) : List NodeRef := buildLoopF F.length F

/-- The single remaining node of the working collection (`pq.top()`). -/
def treeOf (F : List NodeRef) : NodeRef := (buildLoop F).headD .null

/-- The Huffman tree built from a frequency mapping. -/
def treeOfFreqs (fm : List (Nat × Nat)) : NodeRef :=
  treeOf (sortForest (initialLeaves fm))

/-- The Huffman tree the program builds for the given input bytes. -/
def buildTree (text : List Nat) : NodeRef := treeOfFreqs (freqPairs text)

/-- The generated code table `huffmanCodes` for the given input. -/
def huffmanCodes (text : List Nat) : List (Nat × List Char) :=
  generateCodes (buildTree text) [] []

/-- The encode loop: `encodedText += huffmanCodes[c]` over the input bytes. -/
def encodedText (text : List Nat) : List Char :=
  text.foldl (fun acc c => acc ++ codeOf (huffmanCodes text) c) []

/-- The decode loop, with its full state (decoded output so far, current
node).  Each bit steps to `currentNode->left` or `currentNode->right`; a
reached leaf is emitted and the cursor resets to the root.  The two `none`
results model the C++ null-pointer dereferences: stepping from a null cursor,
and calling `isLeaf()` on a null child. -/
def decodeAux (root : NodeRef) : NodeRef → List Char → Option (List Nat × NodeRef)
  | cur, [] => some ([], cur)
  | .null, _ :: _ => none
  | .node _ _ l r, bit :: bits =>
    match (if bit = '0' then l else r) with
    | .null => none
    | .node nd nf nl nr =>
      if nl = NodeRef.null ∧ nr = NodeRef.null then
        (decodeAux root root bits).map (fun p => (nd :: p.1, p.2))
      else
        decodeAux root (.node nd nf nl nr) bits

/-- The decoded text of the demo: run the decode loop on the encoded text
starting at the root, and keep the accumulated string. -/
def decodedText (text : List Nat) : Option (List Nat) :=
  (decodeAux (buildTree text) (buildTree text) (encodedText text)).map
    (fun p => p.1)

/-! ### Bit packer / header codec, modelled from the spec

None of the following exists in `src/` (the demo never packs bits nor writes
a header); these definitions follow §4.4 and §6 of the spec: 4-byte
big-endian integers, pairs in ascending byte order, pad count 0..7 stored as
one byte after the pairs, bits packed most-significant-bit first. -/

/-- Modelled from the spec: the number of zero pad bits,
`(8 − payload_bit_length mod 8) mod 8`. -/
def padCount (text : List Nat) : Nat :=
  (8 - (encodedText text).length % 8) % 8

/-- Modelled from the spec: the payload bits padded with zero bits to the
next byte boundary. -/
def paddedBits (text : List Nat) : List Char :=
  encodedText text ++ List.replicate (padCount text) '0'

/-- Modelled from the spec: a fixed-width 4-byte big-endian integer. -/
def toBytes4 (n : Nat) : List Nat :=
  [n / 16777216 % 256, n / 65536 % 256, n / 256 % 256, n % 256]

/-- Modelled from the spec: read back a 4-byte big-endian integer. -/
def fromBytes4 (a b c d : Nat) : Nat :=
  ((a * 256 + b) * 256 + c) * 256 + d

/-- Numeric value of one payload bit character. -/
def bitVal (c : Char) : Nat := if c = '1' then 1 else 0

/-- The body of the bit packer, with an explicit iteration budget (one byte
is produced per iteration, so a budget of the bit count is always enough;
the budget only makes the recursion structural). -/
def packBitsF : Nat → List Char → List Nat
  | _, [] => []
  | 0, _ => []
  | n + 1, c :: rest =>
    ((c :: rest).take 8).foldl (fun acc b => 2 * acc + bitVal b) 0 ::
      packBitsF n ((c :: rest).drop 8)

/-- Modelled from the spec: pack the padded bit sequence into bytes, eight
bits per byte, most-significant-bit first. -/
def packBits (l : List Char) : List Nat := packBitsF l.length l

/-- Modelled from the spec: the eight bits of one byte,
most-significant-bit first. -/
def byteBits (n : Nat) : List Char :=
  (List.range 8).map (fun i => if n / 2 ^ (7 - i) % 2 = 1 then '1' else '0')

/-- Modelled from the spec: unpack payload bytes into their bit sequence. -/
def unpackBits (bytes : List Nat) : List Char := bytes.flatMap byteBits

/-- Modelled from the spec (§6): the serialized header — symbol count, then
each (byte value, frequency) pair in ascending byte order, then the pad-bit
count. -/
def headerBytes (text : List Nat) : List Nat :=
  toBytes4 (freqPairs text).length ++
    (freqPairs text).flatMap (fun q => q.1 :: toBytes4 q.2) ++ [padCount text]

/-- Modelled from the spec: `compress` — empty input maps to empty output;
otherwise the header followed by the packed padded payload. -/
def compressM (text : List Nat) : List Nat :=
  if text = [] then [] else
    headerBytes text ++ packBits (paddedBits text)

/-- Modelled from the spec (§7): the distinguishable decode failure. -/
inductive FormatError where
  | truncatedHeader : FormatError
  | badPad : FormatError
  | badPayload : FormatError
  | exhausted : FormatError
  | countMismatch : FormatError
deriving DecidableEq, Repr

/-- Modelled from the spec: read `n` (byte, frequency) pairs of the header. -/
def readPairsM : Nat → List Nat → Option (List (Nat × Nat) × List Nat)
  | 0, rest => some ([], rest)
  | n + 1, b :: x1 :: x2 :: x3 :: x4 :: rest =>
    (readPairsM n rest).map (fun pr => ((b, fromBytes4 x1 x2 x3 x4) :: pr.1, pr.2))
  | _ + 1, _ => none

/-- Modelled from the spec: parse the header — the 4-byte symbol count, the
pairs, the pad-count byte (which must be 0..7); anything short or out of
range is a `FormatError`. -/
def parseHeader (input : List Nat) :
    Except FormatError (List (Nat × Nat) × Nat × List Nat) :=
  match input with
  | a :: b :: c :: d :: rest =>
    match readPairsM (fromBytes4 a b c d) rest with
    | none => .error .truncatedHeader
    | some (pairs, rest2) =>
      match rest2 with
      | p :: payload =>
        if p ≤ 7 then .ok (pairs, p, payload) else .error .badPad
      | [] => .error .truncatedHeader
  | _ => .error .truncatedHeader

/-- Modelled from the spec: `decompress` — parse the header, rebuild the tree
from the recovered frequency mapping, discard the pad bits, decode bit by
bit, and fail with a `FormatError` whenever the payload is inconsistent with
the header (pad count exceeding the bit count, a traversal that exhausts the
bits away from the root, or a decoded symbol count differing from the sum of
the declared frequencies).  A single-leaf tree emits its byte once per bit,
as §4.4 requires. -/
def decompressM (input : List Nat) : Except FormatError (List Nat) :=
  if input = [] then .ok [] else
    match parseHeader input with
    | .error e => .error e
    | .ok (pairs, pad, payload) =>
      if pairs = [] then .ok [] else
        let root := treeOfFreqs pairs
        let bits := unpackBits payload
        if bits.length < pad then .error .badPayload else
          let dataBits := bits.take (bits.length - pad)
          let total := (pairs.map (fun q => q.2)).sum
          if root.isLeafB then
            if dataBits.length = total then
              .ok (dataBits.map (fun _ => root.dataOf))
            else .error .countMismatch
          else
            match decodeAux root root dataBits with
            | none => .error .badPayload
            | some (out, q) =>
              if q = root then
                if out.length = total then .ok out else .error .countMismatch
              else .error .exhausted

/-- Whether a decode attempt failed. -/
def isFormatError : Except FormatError (List Nat) → Bool
  | .error _ => true
  | .ok _ => false

/-- Decidable statement of the prefix-free property of a code table: every
stored code is non-empty, and no key's code is a prefix of a different key's
code. -/
def prefixFreeTable (m : List (Nat × List Char)) : Bool :=
  m.all (fun p =>
    (p.2 ≠ [] : Bool) &&
      m.all (fun q => (p.1 = q.1 : Bool) || (¬ p.2 <+: q.2 : Bool)))

/-! ### Predicates used by the verification -/

/-- The working collection is sorted by frequency (the heap invariant the
sorted-list model maintains). -/
def SortedF (F : List NodeRef) : Prop := F.Pairwise (fun a b => a.freq ≤ b.freq)

/-- Every tree of the working collection is a well-formed full binary tree. -/
def GoodF (F : List NodeRef) : Prop := ∀ t ∈ F, wf t = true

/-- All leaf data values across the working collection, in order. -/
def datasF (F : List NodeRef) : List Nat := F.flatMap datas

/-- The leaf data values across the collection are pairwise distinct. -/
def NodupF (F : List NodeRef) : Prop := (datasF F).Nodup

/-- `Offset T t c` says every leaf of `t` sits `c` levels deeper in `T` than
in `t` — i.e. `t` occurs in `T` at depth `c`. -/
def Offset (T t : NodeRef) (c : Nat) : Prop :=
  ∀ a d, depthOfData t a = some d → depthOfData T a = some (d + c)

/-- A bit string holds only the characters '0' and '1'. -/
def ValidBits (l : List Char) : Prop := ∀ c ∈ l, c = '0' ∨ c = '1'

/-! ### Basic tree lemmas -/

theorem wf_mkLeaf (d f : Nat) : wf (mkLeaf d f) = true := rfl

theorem wf_node_cases {d f : Nat} {l r : NodeRef}
    (h : wf (.node d f l r) = true) :
    (l = NodeRef.null ∧ r = NodeRef.null) ∨
      (l ≠ NodeRef.null ∧ r ≠ NodeRef.null ∧ f = l.freq + r.freq ∧
        wf l = true ∧ wf r = true) := by
  by_cases hlf : l = NodeRef.null ∧ r = NodeRef.null
  · exact Or.inl hlf
  · right
    rw [wf, if_neg hlf] at h
    by_cases hnn : l ≠ NodeRef.null ∧ r ≠ NodeRef.null
    · rw [if_pos hnn] at h
      simp only [Bool.and_eq_true, decide_eq_true_eq] at h
      exact ⟨hnn.1, hnn.2, h.1.1, h.1.2, h.2⟩
    · rw [if_neg hnn] at h
      exact absurd h (by simp)

theorem wf_mkInternal {l r : NodeRef} (hl : wf l = true) (hr : wf r = true) :
    wf (mkInternal l r) = true := by
  have hln : l ≠ NodeRef.null := by
    intro h; rw [h] at hl; exact absurd hl (by simp [wf])
  have hrn : r ≠ NodeRef.null := by
    intro h; rw [h] at hr; exact absurd hr (by simp [wf])
  rw [mkInternal, wf, if_neg (by simp [hln]), if_pos ⟨hln, hrn⟩]
  simp [hl, hr]

theorem datas_mkLeaf (d f : Nat) : datas (mkLeaf d f) = [d] := rfl

theorem datas_node_internal {d f : Nat} {l r : NodeRef}
    (hl : l ≠ NodeRef.null) :
    datas (.node d f l r) = datas l ++ datas r := by
  rw [datas, if_neg (by simp [hl])]

theorem datas_mkInternal {l r : NodeRef} (hl : l ≠ NodeRef.null) :
    datas (mkInternal l r) = datas l ++ datas r :=
  datas_node_internal hl

theorem wf_datas_ne_nil {t : NodeRef} (h : wf t = true) : datas t ≠ [] := by
  induction t with
  | null => exact absurd h (by simp [wf])
  | node d f l r ihl ihr =>
    rcases wf_node_cases h with hlf | ⟨hln, _, _, hwl, _⟩
    · rw [datas, if_pos hlf]; simp
    · rw [datas_node_internal hln]
      have := ihl hwl
      intro hc
      rcases List.append_eq_nil.mp hc with ⟨h1, _⟩
      exact this h1

theorem depth_isSome_iff_mem (t : NodeRef) (a : Nat) :
    (depthOfData t a).isSome = true ↔ a ∈ datas t := by
  induction t with
  | null => simp [depthOfData, datas]
  | node d f l r ihl ihr =>
    by_cases hlf : l = NodeRef.null ∧ r = NodeRef.null
    · rw [depthOfData, if_pos hlf, datas, if_pos hlf]
      by_cases had : a = d <;> simp [had]
    · rw [depthOfData, if_neg hlf, datas, if_neg hlf]
      rcases hdl : depthOfData l a with _ | k
      · rcases hdr : depthOfData r a with _ | k2
        · simp only [List.mem_append]
          constructor
          · intro h; exact absurd h (by simp)
          · intro h
            rcases h with h | h
            · rw [← ihl, hdl] at h; exact absurd h (by simp)
            · rw [← ihr, hdr] at h; exact absurd h (by simp)
        · simp only [List.mem_append]
          constructor
          · intro _; right; rw [← ihr, hdr]; rfl
          · intro _; rfl
      · simp only [List.mem_append]
        constructor
        · intro _; left; rw [← ihl, hdl]; rfl
        · intro _; rfl

theorem depth_eq_none_of_not_mem {t : NodeRef} {a : Nat}
    (h : a ∉ datas t) : depthOfData t a = none := by
  rcases hd : depthOfData t a with _ | k
  · rfl
  · exact absurd ((depth_isSome_iff_mem t a).mp (by rw [hd]; rfl)) h

theorem depth_some_of_mem {t : NodeRef} {a : Nat} (h : a ∈ datas t) :
    ∃ k, depthOfData t a = some k := by
  have := (depth_isSome_iff_mem t a).mpr h
  rcases hd : depthOfData t a with _ | k
  · rw [hd] at this; exact absurd this (by simp)
  · exact ⟨k, rfl⟩

/-! ### Path lemmas -/

theorem pathToLeaf_length {t : NodeRef} {a : Nat} (hw : wf t = true)
    (hnd : (datas t).Nodup) (hm : a ∈ datas t) :
    depthOfData t a = some (pathToLeaf t a).length := by
  induction t with
  | null => exact absurd hm (by simp [datas])
  | node d f l r ihl ihr =>
    rcases wf_node_cases hw with hlf | ⟨hln, hrn, _, hwl, hwr⟩
    · rw [datas, if_pos hlf] at hm
      have had : a = d := by simpa using hm
      rw [depthOfData, if_pos hlf, if_pos had, pathToLeaf, if_pos hlf]
      rfl
    · have hlf : ¬ (l = NodeRef.null ∧ r = NodeRef.null) := by simp [hln]
      rw [datas_node_internal hln] at hm hnd
      rcases List.nodup_append.mp hnd with ⟨hndl, hndr, hdisj⟩
      rw [depthOfData, if_neg hlf, pathToLeaf, if_neg hlf]
      by_cases hml : a ∈ datas l
      · rw [if_pos hml, ihl hwl hndl hml]
        simp
      · have hmr : a ∈ datas r := by
          rcases List.mem_append.mp hm with h | h
          · exact absurd h hml
          · exact h
        rw [if_neg hml, depth_eq_none_of_not_mem hml, ihr hwr hndr hmr]
        simp

theorem pathToLeaf_ne_nil {d f : Nat} {l r : NodeRef}
    (hlf : ¬ (l = NodeRef.null ∧ r = NodeRef.null)) (a : Nat) :
    pathToLeaf (.node d f l r) a ≠ [] := by
  rw [pathToLeaf, if_neg hlf]
  by_cases hml : a ∈ datas l <;> simp [hml]

theorem pathToLeaf_valid {t : NodeRef} (a : Nat) :
    ValidBits (pathToLeaf t a) := by
  induction t with
  | null => intro c hc; exact absurd hc (by simp [pathToLeaf])
  | node d f l r ihl ihr =>
    intro c hc
    by_cases hlf : l = NodeRef.null ∧ r = NodeRef.null
    · rw [pathToLeaf, if_pos hlf] at hc
      exact absurd hc (by simp)
    · rw [pathToLeaf, if_neg hlf] at hc
      by_cases hml : a ∈ datas l
      · rw [if_pos hml] at hc
        rcases List.mem_cons.mp hc with h | h
        · exact Or.inl h
        · exact ihl c h
      · rw [if_neg hml] at hc
        rcases List.mem_cons.mp hc with h | h
        · exact Or.inr h
        · exact ihr c h

theorem pathToLeaf_prefix_free {t : NodeRef} {a b : Nat} (hw : wf t = true)
    (hnd : (datas t).Nodup) (hma : a ∈ datas t) (hmb : b ∈ datas t)
    (hab : a ≠ b) : ¬ (pathToLeaf t a <+: pathToLeaf t b) := by
  induction t with
  | null => exact absurd hma (by simp [datas])
  | node d f l r ihl ihr =>
    rcases wf_node_cases hw with hlf | ⟨hln, hrn, _, hwl, hwr⟩
    · rw [datas, if_pos hlf] at hma hmb
      have : a = d := by simpa using hma
      have : b = d := by simpa using hmb
      exact absurd (by omega) hab
    · have hlf : ¬ (l = NodeRef.null ∧ r = NodeRef.null) := by simp [hln]
      rw [datas_node_internal hln] at hma hmb hnd
      rcases List.nodup_append.mp hnd with ⟨hndl, hndr, hdisj⟩
      rw [pathToLeaf, if_neg hlf, pathToLeaf, if_neg hlf]
      rcases List.mem_append.mp hma with hal | har
      · rcases List.mem_append.mp hmb with hbl | hbr
        · rw [if_pos hal, if_pos hbl]
          intro hpre
          rcases hpre with ⟨s, hs⟩
          have hh : pathToLeaf l a ++ s = pathToLeaf l b := by
            simpa using hs
          exact ihl hwl hndl hal hbl ⟨s, hh⟩
        · have hbnl : b ∉ datas l := fun hc => hdisj hc hbr
          rw [if_pos hal, if_neg hbnl]
          intro hpre
          rcases hpre with ⟨s, hs⟩
          simp at hs
      · rcases List.mem_append.mp hmb with hbl | hbr
        · have hanl : a ∉ datas l := fun hc => hdisj hc har
          rw [if_neg hanl, if_pos hbl]
          intro hpre
          rcases hpre with ⟨s, hs⟩
          simp at hs
        · have hanl : a ∉ datas l := fun hc => hdisj hc har
          have hbnl : b ∉ datas l := fun hc => hdisj hc hbr
          rw [if_neg hanl, if_neg hbnl]
          intro hpre
          rcases hpre with ⟨s, hs⟩
          have hh : pathToLeaf r a ++ s = pathToLeaf r b := by
            simpa using hs
          exact ihr hwr hndr har hbr ⟨s, hh⟩

/-! ### Sorted-list heap model lemmas -/

open List

theorem length_insertByFreq (x : NodeRef) (l : List NodeRef) :
    (insertByFreq x l).length = l.length + 1 := by
  induction l with
  | nil => rfl
  | cons y l ih =>
    by_cases hy : y.freq ≤ x.freq <;> simp [insertByFreq, hy, ih]

theorem buildLoop_nil : buildLoop [] = [] := rfl

theorem buildLoop_single (t : NodeRef) : buildLoop [t] = [t] := rfl

theorem buildLoop_cons_cons (t1 t2 : NodeRef) (l : List NodeRef) :
    buildLoop (t1 :: t2 :: l) =
      buildLoop (insertByFreq (mkInternal t1 t2) l) := by
  rw [buildLoop, buildLoop, length_insertByFreq]
  rfl

theorem treeOf_nil : treeOf ([] : List NodeRef) = NodeRef.null := rfl

theorem treeOf_single (x : NodeRef) : treeOf [x] = x := rfl

theorem treeOf_cons_cons (x y : NodeRef) (l : List NodeRef) :
    treeOf (x :: y :: l) = treeOf (insertByFreq (mkInternal x y) l) := by
  rw [treeOf, treeOf, buildLoop_cons_cons]

theorem mem_insertByFreq {a x : NodeRef} {l : List NodeRef} :
    a ∈ insertByFreq x l ↔ a = x ∨ a ∈ l := by
  induction l with
  | nil => simp [insertByFreq]
  | cons y l ih =>
    by_cases hy : y.freq ≤ x.freq
    · rw [insertByFreq, if_pos hy]
      simp only [List.mem_cons, ih]
      tauto
    · rw [insertByFreq, if_neg hy]
      simp only [List.mem_cons]

theorem sublist_insertByFreq (x : NodeRef) (l : List NodeRef) :
    l <+ insertByFreq x l := by
  induction l with
  | nil => simp [insertByFreq]
  | cons y l ih =>
    by_cases hy : y.freq ≤ x.freq
    · rw [insertByFreq, if_pos hy]
      exact List.Sublist.cons₂ y ih
    · rw [insertByFreq, if_neg hy]
      exact List.Sublist.cons x (List.Sublist.refl _)

theorem sorted_insertByFreq {x : NodeRef} {l : List NodeRef}
    (h : SortedF l) : SortedF (insertByFreq x l) := by
  induction l with
  | nil =>
    simp [insertByFreq, SortedF]
  | cons y l ih =>
    rcases List.pairwise_cons.mp h with ⟨hy, hl⟩
    by_cases hyx : y.freq ≤ x.freq
    · rw [insertByFreq, if_pos hyx]
      refine List.pairwise_cons.mpr ⟨?_, ih hl⟩
      intro b hb
      rcases mem_insertByFreq.mp hb with rfl | hbl
      · exact hyx
      · exact hy b hbl
    · rw [insertByFreq, if_neg hyx]
      refine List.pairwise_cons.mpr ⟨?_, h⟩
      intro b hb
      rcases List.mem_cons.mp hb with rfl | hbl
      · omega
      · have := hy b hbl
        omega

theorem sortForest_perm (l : List NodeRef) : (sortForest l).Perm l := by
  induction l with
  | nil => simp [sortForest]
  | cons x l ih =>
    rw [sortForest]
    have h1 : (insertByFreq x (sortForest l)).Perm (x :: sortForest l) := by
      clear ih
      induction sortForest l with
      | nil => simp [insertByFreq]
      | cons y m ihm =>
        by_cases hy : y.freq ≤ x.freq
        · rw [insertByFreq, if_pos hy]
          exact (ihm.cons y).trans (List.Perm.swap x y m)
        · rw [insertByFreq, if_neg hy]
    exact h1.trans (ih.cons x)

theorem sorted_sortForest (l : List NodeRef) : SortedF (sortForest l) := by
  induction l with
  | nil => simp [sortForest, SortedF]
  | cons x l ih => exact sorted_insertByFreq ih

theorem pair_sublist_insertByFreq {t x : NodeRef} {l : List NodeRef}
    (hs : SortedF l) (ht : t ∈ l) (hf : t.freq ≤ x.freq) :
    [t, x] <+ insertByFreq x l := by
  induction l with
  | nil => exact absurd ht (by simp)
  | cons y l ih =>
    rcases List.pairwise_cons.mp hs with ⟨hy, hl⟩
    by_cases hyx : y.freq ≤ x.freq
    · rw [insertByFreq, if_pos hyx]
      rcases List.mem_cons.mp ht with rfl | htl
      · exact List.Sublist.cons₂ t
          (List.singleton_sublist.mpr (mem_insertByFreq.mpr (Or.inl rfl)))
      · exact List.Sublist.cons y (ih hl htl)
    · rw [insertByFreq, if_neg hyx]
      rcases List.mem_cons.mp ht with rfl | htl
      · omega
      · have := hy t htl
        omega

theorem pair_sublist_of_lt {x y : NodeRef} {l : List NodeRef}
    (hs : SortedF l) (hx : x ∈ l) (hy : y ∈ l) (hf : x.freq < y.freq) :
    [x, y] <+ l := by
  induction l with
  | nil => exact absurd hx (by simp)
  | cons h t ih =>
    rcases List.pairwise_cons.mp hs with ⟨hh, ht⟩
    rcases List.mem_cons.mp hx with rfl | hxt
    · have hyt : y ∈ t := by
        rcases List.mem_cons.mp hy with rfl | hyt
        · omega
        · exact hyt
      exact List.Sublist.cons₂ x (List.singleton_sublist.mpr hyt)
    · have hyt : y ∈ t := by
        rcases List.mem_cons.mp hy with rfl | hyt
        · have := hh x hxt
          omega
        · exact hyt
      exact List.Sublist.cons h (ih ht hxt hyt)

/-! ### Invariants of the tree-building loop -/

theorem wf_ne_null {t : NodeRef} (h : wf t = true) : t ≠ NodeRef.null := by
  intro hc; rw [hc] at h; exact absurd h (by simp [wf])

theorem buildLoop_singleton :
    ∀ (n : Nat) (F : List NodeRef), F.length ≤ n → F ≠ [] →
      ∃ T, buildLoop F = [T] := by
  intro n
  induction n with
  | zero =>
    intro F hlen hne
    rcases F with _ | ⟨x, F⟩
    · exact absurd rfl hne
    · simp at hlen
  | succ n ih =>
    intro F hlen hne
    rcases F with _ | ⟨x, F⟩
    · exact absurd rfl hne
    · rcases F with _ | ⟨y, l⟩
      · exact ⟨x, buildLoop_single x⟩
      · rw [buildLoop_cons_cons]
        refine ih _ ?_ ?_
        · rw [length_insertByFreq]
          simp at hlen
          omega
        · intro hc
          have := congrArg List.length hc
          rw [length_insertByFreq] at this
          simp at this

theorem goodF_insertByFreq {x : NodeRef} {l : List NodeRef}
    (hg : GoodF l) (hx : wf x = true) : GoodF (insertByFreq x l) := by
  intro t ht
  rcases mem_insertByFreq.mp ht with rfl | htl
  · exact hx
  · exact hg t htl

theorem goodF_buildLoop :
    ∀ (n : Nat) (F : List NodeRef), F.length ≤ n → GoodF F →
      GoodF (buildLoop F) := by
  intro n
  induction n with
  | zero =>
    intro F hlen hg
    rcases F with _ | ⟨x, F⟩
    · intro t ht; exact absurd ht (by simp [buildLoop_nil])
    · simp at hlen
  | succ n ih =>
    intro F hlen hg
    rcases F with _ | ⟨x, F⟩
    · intro t ht; exact absurd ht (by simp [buildLoop_nil])
    · rcases F with _ | ⟨y, l⟩
      · rw [buildLoop_single]; exact hg
      · rw [buildLoop_cons_cons]
        have hwx : wf x = true := hg x (by simp)
        have hwy : wf y = true := hg y (by simp)
        refine ih _ ?_ (goodF_insertByFreq ?_ (wf_mkInternal hwx hwy))
        · rw [length_insertByFreq]
          simp at hlen
          omega
        · intro t ht
          exact hg t (by simp [ht])

theorem wf_treeOf {F : List NodeRef} (hne : F ≠ []) (hg : GoodF F) :
    wf (treeOf F) = true := by
  rcases buildLoop_singleton F.length F (le_refl _) hne with ⟨T, hT⟩
  have := goodF_buildLoop F.length F (le_refl _) hg
  rw [hT] at this
  rw [treeOf, hT]
  exact this T (by simp)

theorem datasF_insertByFreq_perm (x : NodeRef) (l : List NodeRef) :
    (datasF (insertByFreq x l)).Perm (datas x ++ datasF l) := by
  induction l with
  | nil => simp [datasF, insertByFreq]
  | cons y l ih =>
    by_cases hy : y.freq ≤ x.freq
    · rw [insertByFreq, if_pos hy]
      have h1 : (datasF (y :: insertByFreq x l)).Perm
          (datas y ++ (datas x ++ datasF l)) := by
        simp only [datasF, List.flatMap_cons]
        exact (ih.append_left (datas y))
      refine h1.trans ?_
      have h2 := List.perm_append_comm_assoc (datas y) (datas x) (datasF l)
      refine h2.trans ?_
      simp [datasF]
    · rw [insertByFreq, if_neg hy]
      simp [datasF]

theorem datasF_buildLoop_perm :
    ∀ (n : Nat) (F : List NodeRef), F.length ≤ n → GoodF F →
      (datasF (buildLoop F)).Perm (datasF F) := by
  intro n
  induction n with
  | zero =>
    intro F hlen hg
    rcases F with _ | ⟨x, F⟩
    · simp [buildLoop_nil]
    · simp at hlen
  | succ n ih =>
    intro F hlen hg
    rcases F with _ | ⟨x, F⟩
    · simp [buildLoop_nil]
    · rcases F with _ | ⟨y, l⟩
      · simp [buildLoop_single]
      · rw [buildLoop_cons_cons]
        have hwx : wf x = true := hg x (by simp)
        have hwy : wf y = true := hg y (by simp)
        have hlen2 : (insertByFreq (mkInternal x y) l).length ≤ n := by
          rw [length_insertByFreq]
          simp at hlen
          omega
        have hg2 : GoodF (insertByFreq (mkInternal x y) l) :=
          goodF_insertByFreq (fun t ht => hg t (by simp [ht]))
            (wf_mkInternal hwx hwy)
        refine ((ih _ hlen2 hg2).trans
          (datasF_insertByFreq_perm (mkInternal x y) l)).trans ?_
        rw [datas_mkInternal (wf_ne_null hwx)]
        simp [datasF]

theorem datas_treeOf_perm {F : List NodeRef} (hne : F ≠ []) (hg : GoodF F) :
    (datas (treeOf F)).Perm (datasF F) := by
  rcases buildLoop_singleton F.length F (le_refl _) hne with ⟨T, hT⟩
  have h := datasF_buildLoop_perm F.length F (le_refl _) hg
  rw [hT] at h
  rw [treeOf, hT]
  simpa [datasF] using h

theorem treeOf_not_leaf :
    ∀ (n : Nat) (F : List NodeRef), F.length ≤ n → 2 ≤ F.length → GoodF F →
      isLeafB (treeOf F) = false := by
  intro n
  induction n with
  | zero =>
    intro F hlen h2 hg
    omega
  | succ n ih =>
    intro F hlen h2 hg
    rcases F with _ | ⟨x, F⟩
    · simp at h2
    · rcases F with _ | ⟨y, l⟩
      · simp at h2
      · have hwx : wf x = true := hg x (by simp)
        have hwy : wf y = true := hg y (by simp)
        have hg2 : GoodF (insertByFreq (mkInternal x y) l) :=
          goodF_insertByFreq (fun t ht => hg t (by simp [ht]))
            (wf_mkInternal hwx hwy)
        rcases l with _ | ⟨z, l'⟩
        · have heq : treeOf [x, y] = mkInternal x y := rfl
          rw [heq, mkInternal, isLeafB,
            if_neg (by simp [wf_ne_null hwx])]
        · rw [treeOf_cons_cons]
          refine ih _ ?_ ?_ hg2
          · rw [length_insertByFreq]
            simp only [List.length_cons] at hlen ⊢
            omega
          · rw [length_insertByFreq]
            simp

/-! ### Offsets: where each working tree ends up in the final tree -/

theorem goodF_step {x y : NodeRef} {l : List NodeRef}
    (hg : GoodF (x :: y :: l)) :
    GoodF (insertByFreq (mkInternal x y) l) :=
  goodF_insertByFreq (fun t ht => hg t (by simp [ht]))
    (wf_mkInternal (hg x (by simp)) (hg y (by simp)))

theorem datasF_step_perm {x y : NodeRef} {l : List NodeRef}
    (hg : GoodF (x :: y :: l)) :
    (datasF (insertByFreq (mkInternal x y) l)).Perm (datasF (x :: y :: l)) := by
  refine (datasF_insertByFreq_perm (mkInternal x y) l).trans ?_
  rw [datas_mkInternal (wf_ne_null (hg x (by simp)))]
  simp [datasF]

theorem nodupF_step {x y : NodeRef} {l : List NodeRef}
    (hg : GoodF (x :: y :: l)) (hn : NodupF (x :: y :: l)) :
    NodupF (insertByFreq (mkInternal x y) l) :=
  ((datasF_step_perm hg).nodup_iff).mpr hn

theorem nodup_datas_of_memF {F : List NodeRef} {t : NodeRef}
    (hn : NodupF F) (ht : t ∈ F) : (datas t).Nodup := by
  rcases List.append_of_mem ht with ⟨s, u, rfl⟩
  have hsub : datas t <+ datasF (s ++ t :: u) := by
    have : datasF (s ++ t :: u) = datasF s ++ (datas t ++ datasF u) := by
      simp [datasF]
    rw [this]
    exact ((List.sublist_append_left (datas t) (datasF u)).trans
      (List.sublist_append_right _ _))
  exact hn.sublist hsub

theorem offset_self (T : NodeRef) : Offset T T 0 := by
  intro a d h
  simpa using h

theorem offset_unique {T t : NodeRef} {c c' : Nat} (hne : datas t ≠ [])
    (h1 : Offset T t c) (h2 : Offset T t c') : c = c' := by
  rcases List.exists_mem_of_ne_nil _ hne with ⟨a, ha⟩
  rcases depth_some_of_mem ha with ⟨k, hk⟩
  have e1 := h1 a k hk
  have e2 := h2 a k hk
  rw [e1] at e2
  have : k + c = k + c' := by
    simpa using e2
  omega

theorem offset_children {T l r : NodeRef} {d0 f c : Nat}
    (hln : l ≠ NodeRef.null)
    (hnd : (datas (.node d0 f l r)).Nodup)
    (hO : Offset T (.node d0 f l r) c) :
    Offset T l (c + 1) ∧ Offset T r (c + 1) := by
  have hlf : ¬ (l = NodeRef.null ∧ r = NodeRef.null) := by simp [hln]
  rw [datas_node_internal hln] at hnd
  rcases List.nodup_append.mp hnd with ⟨_, _, hdisj⟩
  constructor
  · intro a d hd
    have hnode : depthOfData (.node d0 f l r) a = some (d + 1) := by
      rw [depthOfData, if_neg hlf, hd]
    have := hO a (d + 1) hnode
    rw [this]
    congr 1
    omega
  · intro a d hd
    have hmr : a ∈ datas r := (depth_isSome_iff_mem r a).mp (by rw [hd]; rfl)
    have hml : a ∉ datas l := fun hc => hdisj hc hmr
    have hnode : depthOfData (.node d0 f l r) a = some (d + 1) := by
      rw [depthOfData, if_neg hlf, depth_eq_none_of_not_mem hml, hd]
    have := hO a (d + 1) hnode
    rw [this]
    congr 1
    omega

theorem offset_exists :
    ∀ (n : Nat) (F : List NodeRef), F.length ≤ n → GoodF F → NodupF F →
      ∀ t ∈ F, ∃ c, Offset (treeOf F) t c := by
  intro n
  induction n with
  | zero =>
    intro F hlen hg hn t ht
    rcases F with _ | ⟨x, F⟩
    · exact absurd ht (by simp)
    · simp at hlen
  | succ n ih =>
    intro F hlen hg hn t ht
    rcases F with _ | ⟨x, F⟩
    · exact absurd ht (by simp)
    · rcases F with _ | ⟨y, l⟩
      · rcases List.mem_singleton.mp ht with rfl
        exact ⟨0, by rw [treeOf_single]; exact offset_self t⟩
      · have hg2 := goodF_step hg
        have hn2 := nodupF_step hg hn
        have hlen2 : (insertByFreq (mkInternal x y) l).length ≤ n := by
          rw [length_insertByFreq]
          simp only [List.length_cons] at hlen
          omega
        have hmem : mkInternal x y ∈ insertByFreq (mkInternal x y) l :=
          mem_insertByFreq.mpr (Or.inl rfl)
        rcases ih _ hlen2 hg2 hn2 _ hmem with ⟨cm, hcm⟩
        have hxn : x ≠ NodeRef.null := wf_ne_null (hg x (by simp))
        have hndm : (datas (mkInternal x y)).Nodup :=
          nodup_datas_of_memF hn2 hmem
        have hch : Offset (treeOf (insertByFreq (mkInternal x y) l)) x (cm + 1) ∧
            Offset (treeOf (insertByFreq (mkInternal x y) l)) y (cm + 1) :=
          offset_children hxn hndm hcm
        rw [treeOf_cons_cons]
        rcases List.mem_cons.mp ht with rfl | ht2
        · exact ⟨cm + 1, hch.1⟩
        · rcases List.mem_cons.mp ht2 with rfl | ht3
          · exact ⟨cm + 1, hch.2⟩
          · exact ih _ hlen2 hg2 hn2 t
              (mem_insertByFreq.mpr (Or.inr ht3))

/-! ### Depth monotonicity of the greedy construction

`greedy_main` proves simultaneously, by induction on the forest size:
(Q) an element occurring earlier in the sorted working list ends up at least
as deep in the final tree as any element occurring later, and
(L) the head of the list ends at most one level deeper than any element
whose weight is at most twice the head's weight. -/

theorem freq_mkInternal (l r : NodeRef) :
    (mkInternal l r).freq = l.freq + r.freq := rfl

theorem sortedF_tail {x : NodeRef} {l : List NodeRef}
    (h : SortedF (x :: l)) : SortedF l :=
  (List.pairwise_cons.mp h).2

theorem greedy_main :
    ∀ (n : Nat) (F : List NodeRef), F.length ≤ n → F ≠ [] → SortedF F →
      GoodF F → NodupF F →
      ((∀ t1 t2 c1 c2, [t1, t2] <+ F → Offset (treeOf F) t1 c1 →
          Offset (treeOf F) t2 c2 → c2 ≤ c1) ∧
        (∀ h rest t ch ct, F = h :: rest → t ∈ F → t.freq ≤ 2 * h.freq →
          Offset (treeOf F) h ch → Offset (treeOf F) t ct → ch ≤ ct + 1)) := by
  intro n
  induction n with
  | zero =>
    intro F hlen hne hs hg hn
    rcases F with _ | ⟨x, F⟩
    · exact absurd rfl hne
    · simp at hlen
  | succ n ih =>
    intro F hlen hne hs hg hn
    rcases F with _ | ⟨x, F⟩
    · exact absurd rfl hne
    · rcases F with _ | ⟨y, l⟩
      · constructor
        · intro t1 t2 c1 c2 hsub h1 h2
          have := hsub.length_le
          simp at this
        · intro h rest t ch ct heq ht hfle hOh hOt
          injection heq with hh hr
          subst hh
          subst hr
          rcases List.mem_singleton.mp ht with rfl
          rw [treeOf_single] at hOh hOt
          have hd : datas t ≠ [] := wf_datas_ne_nil (hg t (by simp))
          have := offset_unique hd hOh hOt
          omega
      · -- the merge step
        have hwx : wf x = true := hg x (by simp)
        have hwy : wf y = true := hg y (by simp)
        have hxn : x ≠ NodeRef.null := wf_ne_null hwx
        have hg2 := goodF_step hg
        have hn2 := nodupF_step hg hn
        have hsl : SortedF l := sortedF_tail (sortedF_tail hs)
        have hs2 : SortedF (insertByFreq (mkInternal x y) l) :=
          sorted_insertByFreq hsl
        have hlen2 : (insertByFreq (mkInternal x y) l).length ≤ n := by
          rw [length_insertByFreq]
          simp only [List.length_cons] at hlen
          omega
        have hne2 : insertByFreq (mkInternal x y) l ≠ [] := by
          intro hc
          have := congrArg List.length hc
          rw [length_insertByFreq] at this
          simp at this
        obtain ⟨Q1, L1⟩ := ih _ hlen2 hne2 hs2 hg2 hn2
        have hmem : mkInternal x y ∈ insertByFreq (mkInternal x y) l :=
          mem_insertByFreq.mpr (Or.inl rfl)
        obtain ⟨cm, hcm⟩ := offset_exists
          (insertByFreq (mkInternal x y) l).length _ (le_refl _) hg2 hn2 _ hmem
        have hndm : (datas (mkInternal x y)).Nodup :=
          nodup_datas_of_memF hn2 hmem
        have hch : Offset (treeOf (insertByFreq (mkInternal x y) l)) x (cm + 1) ∧
            Offset (treeOf (insertByFreq (mkInternal x y) l)) y (cm + 1) :=
          offset_children hxn hndm hcm
        have hdx : datas x ≠ [] := wf_datas_ne_nil hwx
        have hdy : datas y ≠ [] := wf_datas_ne_nil hwy
        have hxy : x.freq ≤ y.freq := (List.pairwise_cons.mp hs).1 y (by simp)
        have hxl : ∀ z ∈ l, x.freq ≤ z.freq := fun z hz =>
          (List.pairwise_cons.mp hs).1 z (by simp [hz])
        have hyl : ∀ z ∈ l, y.freq ≤ z.freq := fun z hz =>
          (List.pairwise_cons.mp (sortedF_tail hs)).1 z hz
        -- upper bound: any element of `l` has offset at most `cm + 1`
        have UB : ∀ t' ∈ l, ∀ c',
            Offset (treeOf (insertByFreq (mkInternal x y) l)) t' c' →
            c' ≤ cm + 1 := by
          intro t' ht' c' hOt'
          rcases l with _ | ⟨z, l'⟩
          · exact absurd ht' (by simp)
          · by_cases hzm : z.freq ≤ (mkInternal x y).freq
            · have hF1 : insertByFreq (mkInternal x y) (z :: l') =
                  z :: insertByFreq (mkInternal x y) l' := by
                rw [insertByFreq, if_pos hzm]
              obtain ⟨cz, hcz⟩ := offset_exists
                (insertByFreq (mkInternal x y) (z :: l')).length _
                (le_refl _) hg2 hn2 z
                (by rw [hF1]; simp)
              have hc'cz : c' ≤ cz := by
                rcases List.mem_cons.mp ht' with rfl | ht'2
                · have hdz : datas t' ≠ [] :=
                    wf_datas_ne_nil (hg t' (by simp))
                  have := offset_unique hdz hOt' hcz
                  omega
                · refine Q1 z t' cz c' ?_ hcz hOt'
                  rw [hF1]
                  exact List.Sublist.cons₂ z
                    (List.singleton_sublist.mpr
                      (mem_insertByFreq.mpr (Or.inr ht'2)))
              have hczm : cz ≤ cm + 1 := by
                refine L1 z (insertByFreq (mkInternal x y) l')
                  (mkInternal x y) cz cm hF1 hmem ?_ hcz hcm
                have h1 := hxl z (by simp)
                have h2 := hyl z (by simp)
                rw [freq_mkInternal]
                omega
              omega
            · have hF1 : insertByFreq (mkInternal x y) (z :: l') =
                  mkInternal x y :: z :: l' := by
                rw [insertByFreq, if_neg hzm]
              have hsub : [mkInternal x y, t'] <+
                  insertByFreq (mkInternal x y) (z :: l') := by
                rw [hF1]
                exact List.Sublist.cons₂ _ (List.singleton_sublist.mpr ht')
              have := Q1 _ _ cm c' hsub hcm hOt'
              omega
        refine ⟨?_, ?_⟩
        · -- part Q
          intro t1 t2 c1 c2 hsub h1 h2
          rw [treeOf_cons_cons] at h1 h2
          cases hsub with
          | cons _ h' =>
            cases h' with
            | cons _ h'' =>
              exact Q1 t1 t2 c1 c2
                (h''.trans (sublist_insertByFreq (mkInternal x y) l)) h1 h2
            | cons₂ _ h'' =>
              have hc1 : c1 = cm + 1 := offset_unique hdy h1 hch.2
              have hc2 : c2 ≤ cm + 1 :=
                UB t2 (List.singleton_sublist.mp h'') c2 h2
              omega
          | cons₂ _ h' =>
            cases h' with
            | cons _ h'' =>
              have hc1 : c1 = cm + 1 := offset_unique hdx h1 hch.1
              have hc2 : c2 ≤ cm + 1 :=
                UB t2 (List.singleton_sublist.mp h'') c2 h2
              omega
            | cons₂ _ h'' =>
              have hc1 : c1 = cm + 1 := offset_unique hdx h1 hch.1
              have hc2 : c2 = cm + 1 := offset_unique hdy h2 hch.2
              omega
        · -- part L
          intro h rest t ch ct heq ht hfle hOh hOt
          injection heq with hh hr
          subst hh
          subst hr
          rw [treeOf_cons_cons] at hOh hOt
          have hcheq : ch = cm + 1 := offset_unique hdx hOh hch.1
          rcases List.mem_cons.mp ht with rfl | ht2
          · have : ct = cm + 1 := offset_unique hdx hOt hch.1
            omega
          · rcases List.mem_cons.mp ht2 with rfl | ht3
            · have : ct = cm + 1 := offset_unique hdy hOt hch.2
              omega
            · have hfm : t.freq ≤ (mkInternal x y).freq := by
                rw [freq_mkInternal]
                omega
              have hsub : [t, mkInternal x y] <+
                  insertByFreq (mkInternal x y) l :=
                pair_sublist_insertByFreq hsl ht3 hfm
              have := Q1 t (mkInternal x y) ct cm hsub hOt hcm
              omega

/-! ### Code-table lemmas -/

theorem lookup_map_replace_self {m : List (Nat × List Char)} {k : Nat}
    (v : List Char) (h : (m.lookup k).isSome = true) :
    ((m.map (fun p => if p.1 = k then (k, v) else p)).lookup k) = some v := by
  induction m with
  | nil => simp at h
  | cons kv m ih =>
    obtain ⟨ak, av⟩ := kv
    by_cases hak : ak = k
    · subst hak
      simp [List.lookup_cons]
    · have hka : (k == ak) = false := beq_false_of_ne (Ne.symm hak)
      rw [List.lookup_cons, hka] at h
      simp only [List.map_cons, if_neg hak]
      rw [List.lookup_cons, hka]
      exact ih h

theorem lookup_map_replace_ne {m : List (Nat × List Char)} {k k' : Nat}
    (v : List Char) (h : k' ≠ k) :
    ((m.map (fun p => if p.1 = k then (k, v) else p)).lookup k') =
      m.lookup k' := by
  induction m with
  | nil => simp
  | cons kv m ih =>
    obtain ⟨ak, av⟩ := kv
    by_cases hak : ak = k
    · subst hak
      simp [List.lookup_cons, beq_false_of_ne h, ih]
    · simp only [List.map_cons, if_neg hak]
      rw [List.lookup_cons, List.lookup_cons]
      rcases hka : (k' == ak) with _ | _ <;> simp [ih]

theorem lookup_append_single_self {m : List (Nat × List Char)} {k : Nat}
    (v : List Char) (h : m.lookup k = none) :
    ((m ++ [(k, v)]).lookup k) = some v := by
  induction m with
  | nil => simp [List.lookup_cons]
  | cons kv m ih =>
    obtain ⟨ak, av⟩ := kv
    rw [List.lookup_cons] at h
    rcases hka : (k == ak) with _ | _
    · rw [hka] at h
      rw [List.cons_append, List.lookup_cons, hka]
      exact ih h
    · rw [hka] at h
      simp at h

theorem lookup_append_single_ne {m : List (Nat × List Char)} {k k' : Nat}
    (v : List Char) (h : k' ≠ k) :
    ((m ++ [(k, v)]).lookup k') = m.lookup k' := by
  induction m with
  | nil => simp [List.lookup_cons, beq_false_of_ne h]
  | cons kv m ih =>
    obtain ⟨ak, av⟩ := kv
    rw [List.cons_append, List.lookup_cons, List.lookup_cons]
    rcases hka : (k' == ak) with _ | _ <;> simp [ih]

theorem lookup_setCode_self (m : List (Nat × List Char)) (k : Nat)
    (v : List Char) : ((setCode m k v).lookup k) = some v := by
  rw [setCode]
  rcases hl : m.lookup k with _ | b
  · rw [if_neg (by simp [hl])]
    exact lookup_append_single_self v hl
  · rw [if_pos (by simp [hl])]
    exact lookup_map_replace_self v (by simp [hl])

theorem lookup_setCode_ne (m : List (Nat × List Char)) {k k' : Nat}
    (v : List Char) (h : k' ≠ k) :
    ((setCode m k v).lookup k') = m.lookup k' := by
  rw [setCode]
  by_cases hs : (m.lookup k).isSome = true
  · rw [if_pos hs]
    exact lookup_map_replace_ne v h
  · rw [if_neg hs]
    exact lookup_append_single_ne v h

theorem lookup_generateCodes :
    ∀ (t : NodeRef) (p : List Char) (m : List (Nat × List Char)),
      wf t = true → (datas t).Nodup → p ≠ [] → ∀ a,
      ((generateCodes t p m).lookup a) =
        if a ∈ datas t then some (p ++ pathToLeaf t a) else m.lookup a := by
  intro t
  induction t with
  | null => intro p m hw; exact absurd hw (by simp [wf])
  | node d f l r ihl ihr =>
    intro p m hw hnd hp a
    rcases wf_node_cases hw with hlf | ⟨hln, hrn, _, hwl, hwr⟩
    · rw [generateCodes, if_pos hlf, if_neg hp]
      rw [datas, if_pos hlf, pathToLeaf, if_pos hlf]
      by_cases had : a = d
      · subst had
        rw [if_pos (by simp), lookup_setCode_self]
        simp
      · rw [if_neg (by simp [had]), lookup_setCode_ne m p had]
    · have hlf : ¬ (l = NodeRef.null ∧ r = NodeRef.null) := by simp [hln]
      rw [generateCodes, if_neg hlf]
      rw [datas_node_internal hln] at hnd ⊢
      rcases List.nodup_append.mp hnd with ⟨hndl, hndr, hdisj⟩
      rw [ihr (p ++ ['1']) _ hwr hndr (by simp) a]
      by_cases hmr : a ∈ datas r
      · have hnl : a ∉ datas l := fun hc => hdisj hc hmr
        rw [if_pos hmr, if_pos (by simp [hmr])]
        rw [pathToLeaf, if_neg hlf, if_neg hnl]
        simp
      · rw [if_neg hmr, ihl (p ++ ['0']) m hwl hndl (by simp) a]
        by_cases hml : a ∈ datas l
        · rw [if_pos hml, if_pos (by simp [hml])]
          rw [pathToLeaf, if_neg hlf, if_pos hml]
          simp
        · rw [if_neg hml, if_neg (by simp [hml, hmr])]

theorem lookup_table_internal {T : NodeRef} (hw : wf T = true)
    (hnd : (datas T).Nodup) (hnl : isLeafB T = false) (a : Nat) :
    ((generateCodes T [] []).lookup a) =
      if a ∈ datas T then some (pathToLeaf T a) else none := by
  rcases T with _ | ⟨d, f, l, r⟩
  · exact absurd hw (by simp [wf])
  · rcases wf_node_cases hw with hlf | ⟨hln, hrn, _, hwl, hwr⟩
    · rw [isLeafB, if_pos hlf] at hnl
      exact absurd hnl (by simp)
    · have hlf : ¬ (l = NodeRef.null ∧ r = NodeRef.null) := by simp [hln]
      rw [generateCodes, if_neg hlf]
      simp only [List.nil_append]
      rw [datas_node_internal hln] at hnd ⊢
      rcases List.nodup_append.mp hnd with ⟨hndl, hndr, hdisj⟩
      rw [lookup_generateCodes r ['1'] _ hwr hndr (by simp) a]
      by_cases hmr : a ∈ datas r
      · have hnl2 : a ∉ datas l := fun hc => hdisj hc hmr
        rw [if_pos hmr, if_pos (by simp [hmr])]
        rw [pathToLeaf, if_neg hlf, if_neg hnl2]
        simp
      · rw [if_neg hmr, lookup_generateCodes l ['0'] _ hwl hndl (by simp) a]
        by_cases hml : a ∈ datas l
        · rw [if_pos hml, if_pos (by simp [hml])]
          rw [pathToLeaf, if_neg hlf, if_pos hml]
          simp
        · rw [if_neg hml, if_neg (by simp [hml, hmr])]
          simp [List.lookup]

theorem table_leaf (d f : Nat) :
    generateCodes (mkLeaf d f) [] [] = [(d, ['0'])] := rfl

/-! ### Facts about the whole pipeline -/

theorem datasF_perm_of_perm {F₁ F₂ : List NodeRef} (p : F₁.Perm F₂) :
    (datasF F₁).Perm (datasF F₂) := p.flatMap_right datas

theorem datasF_initialLeaves (fm : List (Nat × Nat)) :
    datasF (initialLeaves fm) = fm.map Prod.fst := by
  induction fm with
  | nil => rfl
  | cons p fm ih =>
    simp only [initialLeaves, List.map_cons, datasF, List.flatMap_cons] at ih ⊢
    rw [ih]
    rfl

theorem mem_freqPairs {B : List Nat} {b k : Nat} :
    (b, k) ∈ freqPairs B ↔ b < 256 ∧ k = B.count b ∧ 0 < B.count b := by
  simp only [freqPairs, List.mem_filterMap, List.mem_range]
  constructor
  · rintro ⟨x, hx, hfx⟩
    by_cases hc : 0 < B.count x
    · rw [if_pos hc] at hfx
      injection hfx with h1
      injection h1 with hb hk
      subst hb
      exact ⟨hx, hk.symm, hc⟩
    · rw [if_neg hc] at hfx
      exact absurd hfx (by simp)
  · rintro ⟨hb, hk, hc⟩
    exact ⟨b, hb, by rw [if_pos hc, hk]⟩

theorem map_fst_filterMap_count (B : List Nat) :
    ∀ l : List Nat,
      ((l.filterMap
        (fun b => if 0 < B.count b then some (b, B.count b) else none)).map
          Prod.fst) = l.filter (fun b => decide (0 < B.count b)) := by
  intro l
  induction l with
  | nil => rfl
  | cons x l ih =>
    by_cases hc : 0 < B.count x
    · rw [List.filterMap_cons, if_pos hc]
      simp only [List.map_cons, ih]
      rw [List.filter_cons, if_pos (by simpa using hc)]
    · rw [List.filterMap_cons, if_neg hc]
      rw [List.filter_cons, if_neg (by simpa using hc)]
      exact ih

theorem map_fst_freqPairs (B : List Nat) :
    (freqPairs B).map Prod.fst =
      (List.range 256).filter (fun b => decide (0 < B.count b)) :=
  map_fst_filterMap_count B (List.range 256)

theorem nodup_map_fst_freqPairs (B : List Nat) :
    ((freqPairs B).map Prod.fst).Nodup := by
  rw [map_fst_freqPairs]
  exact (List.nodup_range 256).filter _

theorem goodF_initial (fm : List (Nat × Nat)) :
    GoodF (sortForest (initialLeaves fm)) := by
  intro t ht
  have := (sortForest_perm (initialLeaves fm)).mem_iff.mp ht
  rcases List.mem_map.mp this with ⟨p, _, rfl⟩
  exact wf_mkLeaf p.1 p.2

theorem nodupF_initial (B : List Nat) :
    NodupF (sortForest (initialLeaves (freqPairs B))) := by
  have hperm := datasF_perm_of_perm (sortForest_perm (initialLeaves (freqPairs B)))
  rw [datasF_initialLeaves] at hperm
  exact hperm.nodup_iff.mpr (nodup_map_fst_freqPairs B)

theorem initial_forest_ne_nil {fm : List (Nat × Nat)} (h : fm ≠ []) :
    sortForest (initialLeaves fm) ≠ [] := by
  intro hc
  have hlen := (sortForest_perm (initialLeaves fm)).length_eq
  rw [hc] at hlen
  simp only [List.length_nil, initialLeaves, List.length_map] at hlen
  exact h (List.length_eq_zero.mp hlen.symm)

theorem buildTree_wf {B : List Nat} (h : freqPairs B ≠ []) :
    wf (buildTree B) = true :=
  wf_treeOf (initial_forest_ne_nil h) (goodF_initial (freqPairs B))

theorem buildTree_datas_perm {B : List Nat} (h : freqPairs B ≠ []) :
    (datas (buildTree B)).Perm ((freqPairs B).map Prod.fst) := by
  have h1 := datas_treeOf_perm (initial_forest_ne_nil h)
    (goodF_initial (freqPairs B))
  have h2 := datasF_perm_of_perm (sortForest_perm (initialLeaves (freqPairs B)))
  rw [datasF_initialLeaves] at h2
  exact h1.trans h2

theorem buildTree_nodup {B : List Nat} (h : freqPairs B ≠ []) :
    (datas (buildTree B)).Nodup :=
  (buildTree_datas_perm h).nodup_iff.mpr (nodup_map_fst_freqPairs B)

theorem mem_datas_buildTree {B : List Nat} (h : freqPairs B ≠ []) (a : Nat) :
    a ∈ datas (buildTree B) ↔ a < 256 ∧ 0 < B.count a := by
  rw [(buildTree_datas_perm h).mem_iff]
  constructor
  · intro hm
    rcases List.mem_map.mp hm with ⟨⟨b, k⟩, hbk, rfl⟩
    have := mem_freqPairs.mp hbk
    exact ⟨this.1, this.2.2⟩
  · intro ⟨h1, h2⟩
    exact List.mem_map.mpr ⟨(a, B.count a), mem_freqPairs.mpr ⟨h1, rfl, h2⟩, rfl⟩

theorem buildTree_not_leaf {B : List Nat} (h2 : 2 ≤ (freqPairs B).length) :
    isLeafB (buildTree B) = false := by
  have hne : freqPairs B ≠ [] := by
    intro hc
    rw [hc] at h2
    simp at h2
  refine treeOf_not_leaf _ _ (le_refl _) ?_ (goodF_initial (freqPairs B))
  have hlen := (sortForest_perm (initialLeaves (freqPairs B))).length_eq
  rw [hlen]
  simpa [initialLeaves] using h2

theorem freqPairs_ne_nil {B : List Nat} {c : Nat} (hc : c ∈ B) (hlt : c < 256) :
    freqPairs B ≠ [] := by
  intro hnil
  have : (c, B.count c) ∈ freqPairs B :=
    mem_freqPairs.mpr ⟨hlt, rfl, List.count_pos_iff.mpr hc⟩
  rw [hnil] at this
  exact absurd this (by simp)

/-! ### Encode lemmas -/

theorem foldl_append_eq_flatMap (f : Nat → List Char) :
    ∀ (l : List Nat) (acc : List Char),
      l.foldl (fun a c => a ++ f c) acc = acc ++ l.flatMap f := by
  intro l
  induction l with
  | nil => intro acc; simp
  | cons x l ih =>
    intro acc
    rw [List.foldl_cons, ih, List.flatMap_cons, List.append_assoc]

theorem encodedText_eq_flatMap (B : List Nat) :
    encodedText B = B.flatMap (codeOf (huffmanCodes B)) := by
  rw [encodedText, foldl_append_eq_flatMap]
  rfl

/-! ### Decode lemmas -/

theorem decodeAux_nil (root cur : NodeRef) :
    decodeAux root cur [] = some ([], cur) := by
  rw [decodeAux]

theorem isLeafB_node_false {d f : Nat} {l r : NodeRef}
    (hlf : ¬ (l = NodeRef.null ∧ r = NodeRef.null)) :
    isLeafB (.node d f l r) = false := by
  rw [isLeafB, if_neg hlf]

theorem decodeAux_cons (root : NodeRef) (d f : Nat) (l r : NodeRef)
    (bit : Char) (bits : List Char) :
    decodeAux root (.node d f l r) (bit :: bits) =
      match (if bit = '0' then l else r) with
      | .null => none
      | .node nd nf nl nr =>
        if nl = NodeRef.null ∧ nr = NodeRef.null then
          (decodeAux root root bits).map (fun p => (nd :: p.1, p.2))
        else decodeAux root (.node nd nf nl nr) bits := by
  rw [decodeAux]

theorem decodeAux_path {root : NodeRef} :
    ∀ (cur : NodeRef), wf cur = true → isLeafB cur = false →
      (datas cur).Nodup →
      ∀ a ∈ datas cur, ∀ X,
        decodeAux root cur (pathToLeaf cur a ++ X) =
          (decodeAux root root X).map (fun p => (a :: p.1, p.2)) := by
  intro cur
  induction cur with
  | null => intro hw; exact absurd hw (by simp [wf])
  | node d f l r ihl ihr =>
    intro hw hnlf hnd a ha X
    rcases wf_node_cases hw with hlf | ⟨hln, hrn, _, hwl, hwr⟩
    · rw [isLeafB, if_pos hlf] at hnlf
      exact absurd hnlf (by simp)
    · have hlf : ¬ (l = NodeRef.null ∧ r = NodeRef.null) := by simp [hln]
      rw [datas_node_internal hln] at ha hnd
      rcases List.nodup_append.mp hnd with ⟨hndl, hndr, hdisj⟩
      rw [pathToLeaf, if_neg hlf]
      rcases List.mem_append.mp ha with hal | har
      · rw [if_pos hal, List.cons_append, decodeAux_cons, if_pos rfl]
        rcases l with _ | ⟨dl, fl, ll, rl⟩
        · exact absurd rfl hln
        · by_cases hleaf : ll = NodeRef.null ∧ rl = NodeRef.null
          · have hpath : pathToLeaf (.node dl fl ll rl) a = [] := by
              rw [pathToLeaf, if_pos hleaf]
            have hda : a = dl := by
              rw [datas, if_pos hleaf] at hal
              simpa using hal
            rw [hpath, List.nil_append]
            simp only [if_pos hleaf, hda]
          · simp only [if_neg hleaf]
            exact ihl hwl (isLeafB_node_false hleaf) hndl a hal X
      · have hanl : a ∉ datas l := fun hc => hdisj hc har
        rw [if_neg hanl, List.cons_append, decodeAux_cons,
          if_neg (by decide : ¬ (('1' : Char) = '0'))]
        rcases r with _ | ⟨dr, fr, lr, rr⟩
        · exact absurd rfl hrn
        · by_cases hleaf : lr = NodeRef.null ∧ rr = NodeRef.null
          · have hpath : pathToLeaf (.node dr fr lr rr) a = [] := by
              rw [pathToLeaf, if_pos hleaf]
            have hda : a = dr := by
              rw [datas, if_pos hleaf] at har
              simpa using har
            rw [hpath, List.nil_append]
            simp only [if_pos hleaf, hda]
          · simp only [if_neg hleaf]
            exact ihr hwr (isLeafB_node_false hleaf) hndr a har X

theorem decodeAux_flatMap {root : NodeRef} (hw : wf root = true)
    (hnlf : isLeafB root = false) (hnd : (datas root).Nodup) :
    ∀ syms : List Nat, (∀ s ∈ syms, s ∈ datas root) →
      decodeAux root root (syms.flatMap (pathToLeaf root)) =
        some (syms, root) := by
  intro syms
  induction syms with
  | nil => intro _; rw [List.flatMap_nil, decodeAux_nil]
  | cons s rest ih =>
    intro hmem
    rw [List.flatMap_cons,
      decodeAux_path root hw hnlf hnd s (hmem s (by simp)) _,
      ih (fun t ht => hmem t (by simp [ht]))]
    rfl

theorem datas_length_lt_of_internal {d f : Nat} {l r : NodeRef}
    (hw : wf (.node d f l r) = true)
    (hlf : ¬ (l = NodeRef.null ∧ r = NodeRef.null)) :
    (datas l).length < (datas (.node d f l r)).length ∧
      (datas r).length < (datas (.node d f l r)).length := by
  rcases wf_node_cases hw with hc | ⟨hln, hrn, _, hwl, hwr⟩
  · exact absurd hc hlf
  · rw [datas_node_internal hln, List.length_append]
    have h1 : datas l ≠ [] := wf_datas_ne_nil hwl
    have h2 : datas r ≠ [] := wf_datas_ne_nil hwr
    have l1 : 0 < (datas l).length := List.length_pos.mpr h1
    have l2 : 0 < (datas r).length := List.length_pos.mpr h2
    omega

theorem decodeAux_midpath {root : NodeRef} :
    ∀ (cur : NodeRef), wf cur = true → isLeafB cur = false →
      ∀ a ∈ datas cur, ∀ p₁ p₂, pathToLeaf cur a = p₁ ++ p₂ →
        p₁ ≠ [] → p₂ ≠ [] →
        ∃ q, decodeAux root cur p₁ = some ([], q) ∧ wf q = true ∧
          isLeafB q = false ∧ (datas q).length < (datas cur).length := by
  intro cur
  induction cur with
  | null => intro hw; exact absurd hw (by simp [wf])
  | node d f l r ihl ihr =>
    intro hw hnlf a ha p₁ p₂ hsplit hp₁ hp₂
    rcases wf_node_cases hw with hlf | ⟨hln, hrn, _, hwl, hwr⟩
    · rw [isLeafB, if_pos hlf] at hnlf
      exact absurd hnlf (by simp)
    · have hlf : ¬ (l = NodeRef.null ∧ r = NodeRef.null) := by simp [hln]
      rw [datas_node_internal hln] at ha
      rw [pathToLeaf, if_neg hlf] at hsplit
      have hsz := datas_length_lt_of_internal hw hlf
      by_cases hal : a ∈ datas l
      · rw [if_pos hal] at hsplit
        rcases p₁ with _ | ⟨b, p₁'⟩
        · exact absurd rfl hp₁
        · rw [List.cons_append] at hsplit
          injection hsplit with hb hrest
          subst hb
          rw [decodeAux_cons, if_pos rfl]
          rcases l with _ | ⟨dl, fl, ll, rl⟩
          · exact absurd rfl hln
          · by_cases hleaf : ll = NodeRef.null ∧ rl = NodeRef.null
            · rw [pathToLeaf, if_pos hleaf] at hrest
              rcases List.append_eq_nil.mp hrest.symm with ⟨_, hc⟩
              exact absurd hc hp₂
            · simp only [if_neg hleaf]
              rcases p₁' with _ | ⟨b2, p₁''⟩
              · refine ⟨.node dl fl ll rl, ?_, hwl,
                  isLeafB_node_false hleaf, hsz.1⟩
                rw [decodeAux_nil]
              · exact (ihl hwl (isLeafB_node_false hleaf) a hal
                  (b2 :: p₁'') p₂ hrest (by simp) hp₂).imp
                  (fun q hq => ⟨hq.1, hq.2.1, hq.2.2.1,
                    lt_trans hq.2.2.2 hsz.1⟩)
      · have har : a ∈ datas r := by
          rcases List.mem_append.mp ha with h | h
          · exact absurd h hal
          · exact h
        rw [if_neg hal] at hsplit
        rcases p₁ with _ | ⟨b, p₁'⟩
        · exact absurd rfl hp₁
        · rw [List.cons_append] at hsplit
          injection hsplit with hb hrest
          subst hb
          rw [decodeAux_cons, if_neg (by decide : ¬ (('1' : Char) = '0'))]
          rcases r with _ | ⟨dr, fr, lr, rr⟩
          · exact absurd rfl hrn
          · by_cases hleaf : lr = NodeRef.null ∧ rr = NodeRef.null
            · rw [pathToLeaf, if_pos hleaf] at hrest
              rcases List.append_eq_nil.mp hrest.symm with ⟨_, hc⟩
              exact absurd hc hp₂
            · simp only [if_neg hleaf]
              rcases p₁' with _ | ⟨b2, p₁''⟩
              · refine ⟨.node dr fr lr rr, ?_, hwr,
                  isLeafB_node_false hleaf, hsz.2⟩
                rw [decodeAux_nil]
              · exact (ihr hwr (isLeafB_node_false hleaf) a har
                  (b2 :: p₁'') p₂ hrest (by simp) hp₂).imp
                  (fun q hq => ⟨hq.1, hq.2.1, hq.2.2.1,
                    lt_trans hq.2.2.2 hsz.2⟩)

theorem decodeAux_take {root : NodeRef} (hw : wf root = true)
    (hnlf : isLeafB root = false) (hnd : (datas root).Nodup) :
    ∀ syms : List Nat, (∀ s ∈ syms, s ∈ datas root) →
      ∀ m, m < (syms.flatMap (pathToLeaf root)).length →
        ∃ out q, decodeAux root root
          ((syms.flatMap (pathToLeaf root)).take m) = some (out, q) ∧
          out.length < syms.length := by
  intro syms
  induction syms with
  | nil =>
    intro _ m hm
    simp at hm
  | cons s rest ih =>
    intro hmem m hm
    rw [List.flatMap_cons] at hm ⊢
    rw [List.take_append_eq_append_take]
    by_cases hlen : (pathToLeaf root s).length ≤ m
    · rw [List.take_of_length_le hlen]
      rw [decodeAux_path root hw hnlf hnd s (hmem s (by simp)) _]
      have hm2 : m - (pathToLeaf root s).length <
          (rest.flatMap (pathToLeaf root)).length := by
        rw [List.length_append] at hm
        omega
      rcases ih (fun t ht => hmem t (by simp [ht])) _ hm2 with
        ⟨out, q, hout, hlt⟩
      refine ⟨s :: out, q, ?_, by simpa using hlt⟩
      rw [hout]
      rfl
    · have hm0 : m - (pathToLeaf root s).length = 0 := by omega
      rw [hm0, List.take_zero, List.append_nil]
      rcases Nat.eq_zero_or_pos m with rfl | hmpos
      · rw [List.take_zero, decodeAux_nil]
        exact ⟨[], root, rfl, by simp⟩
      · have hsplit : pathToLeaf root s =
            (pathToLeaf root s).take m ++ (pathToLeaf root s).drop m :=
          (List.take_append_drop m _).symm
        have hp₁ : (pathToLeaf root s).take m ≠ [] := by
          intro hc
          have := congrArg List.length hc
          rw [List.length_take] at this
          simp only [List.length_nil] at this
          omega
        have hp₂ : (pathToLeaf root s).drop m ≠ [] := by
          intro hc
          have := congrArg List.length hc
          rw [List.length_drop] at this
          simp only [List.length_nil] at this
          omega
        rcases decodeAux_midpath root hw hnlf s (hmem s (by simp))
          _ _ hsplit hp₁ hp₂ with ⟨q, hq, _⟩
        exact ⟨[], q, hq, by simp⟩

/-! ### Header codec lemmas (spec-modelled part) -/

theorem fromBytes4_toBytes4 {n : Nat} (h : n < 4294967296) :
    fromBytes4 (n / 16777216 % 256) (n / 65536 % 256) (n / 256 % 256)
      (n % 256) = n := by
  rw [fromBytes4]
  omega

theorem readPairsM_roundtrip :
    ∀ (pairs : List (Nat × Nat)) (rest : List Nat),
      (∀ p ∈ pairs, p.2 < 4294967296) →
      readPairsM pairs.length
        ((pairs.flatMap (fun q => q.1 :: toBytes4 q.2)) ++ rest) =
        some (pairs, rest) := by
  intro pairs
  induction pairs with
  | nil => intro rest _; rfl
  | cons p pairs ih =>
    intro rest hlt
    obtain ⟨b, k⟩ := p
    have hk : k < 4294967296 := hlt (b, k) (by simp)
    rw [List.flatMap_cons, toBytes4]
    simp only [List.cons_append, List.append_assoc, List.length_cons,
      List.nil_append]
    rw [readPairsM, ih rest (fun q hq => hlt q (by simp [hq]))]
    simp [fromBytes4_toBytes4 hk]

theorem freqPairs_length_le (B : List Nat) : (freqPairs B).length ≤ 256 := by
  have h := List.length_filterMap_le
    (fun b => if 0 < B.count b then some (b, B.count b) else none)
    (List.range 256)
  simpa [freqPairs] using h

theorem freqPairs_snd_le {B : List Nat} {p : Nat × Nat}
    (hp : p ∈ freqPairs B) : p.2 ≤ B.length := by
  obtain ⟨b, k⟩ := p
  rcases mem_freqPairs.mp hp with ⟨_, hk, _⟩
  rw [hk]
  exact List.count_le_length b B

theorem padCount_le (B : List Nat) : padCount B ≤ 7 := by
  rw [padCount]
  omega

theorem parseHeader_roundtrip {B : List Nat} (X : List Nat)
    (hlen : B.length < 4294967296) :
    parseHeader (headerBytes B ++ X) =
      .ok (freqPairs B, padCount B, X) := by
  rw [headerBytes, toBytes4]
  simp only [List.cons_append, List.append_assoc, List.nil_append]
  rw [parseHeader]
  rw [fromBytes4_toBytes4
    (lt_of_le_of_lt (freqPairs_length_le B) (by omega))]
  have hpairs := readPairsM_roundtrip (freqPairs B) (padCount B :: X)
    (fun p hp => lt_of_le_of_lt (freqPairs_snd_le hp) hlen)
  simp only [hpairs]
  rw [if_pos (padCount_le B)]

/-! ### Bit packing lemmas (spec-modelled part) -/

theorem packBits_nil : packBits [] = [] := rfl

theorem packBitsF_ext :
    ∀ (n₁ n₂ : Nat) (l : List Char), l.length ≤ n₁ → l.length ≤ n₂ →
      packBitsF n₁ l = packBitsF n₂ l := by
  intro n₁
  induction n₁ with
  | zero =>
    intro n₂ l h1 h2
    rcases l with _ | ⟨c, l⟩
    · rw [packBitsF]
      rcases n₂ with _ | n₂ <;> rfl
    · simp at h1
  | succ n ih =>
    intro n₂ l h1 h2
    rcases l with _ | ⟨c, l⟩
    · rw [packBitsF]
      rcases n₂ with _ | n₂ <;> rfl
    · rcases n₂ with _ | n₂
      · simp at h2
      · rw [packBitsF, packBitsF]
        congr 1
        refine ih n₂ ((c :: l).drop 8) ?_ ?_ <;>
          (rw [List.length_drop]
           simp only [List.length_cons] at h1 h2 ⊢
           omega)

theorem packBits_cons (c : Char) (rest : List Char) :
    packBits (c :: rest) =
      ((c :: rest).take 8).foldl (fun acc b => 2 * acc + bitVal b) 0 ::
        packBits ((c :: rest).drop 8) := by
  rw [packBits]
  simp only [List.length_cons]
  rw [packBitsF]
  rw [packBits]
  congr 1
  refine packBitsF_ext rest.length _ ((c :: rest).drop 8) ?_ (le_refl _)
  rw [List.length_drop]
  simp only [List.length_cons]
  omega

theorem byteBits_length (n : Nat) : (byteBits n).length = 8 := by
  simp [byteBits]

theorem length_unpackBits (l : List Nat) :
    (unpackBits l).length = 8 * l.length := by
  induction l with
  | nil => rfl
  | cons x l ih =>
    rw [unpackBits, List.flatMap_cons] at *
    rw [List.length_append, byteBits_length, ih]
    simp only [List.length_cons]
    omega

theorem unpackBits_take_front (l : List Nat) (x : Nat) :
    (unpackBits (l ++ [x])).take (8 * l.length) = unpackBits l := by
  rw [unpackBits, List.flatMap_append]
  exact List.take_left' (by rw [← unpackBits, length_unpackBits])

theorem byteBits_foldl (c0 c1 c2 c3 c4 c5 c6 c7 : Char)
    (h0 : c0 = '0' ∨ c0 = '1') (h1 : c1 = '0' ∨ c1 = '1')
    (h2 : c2 = '0' ∨ c2 = '1') (h3 : c3 = '0' ∨ c3 = '1')
    (h4 : c4 = '0' ∨ c4 = '1') (h5 : c5 = '0' ∨ c5 = '1')
    (h6 : c6 = '0' ∨ c6 = '1') (h7 : c7 = '0' ∨ c7 = '1') :
    byteBits ([c0, c1, c2, c3, c4, c5, c6, c7].foldl
      (fun acc b => 2 * acc + bitVal b) 0) =
      [c0, c1, c2, c3, c4, c5, c6, c7] := by
  rcases h0 with rfl | rfl <;> rcases h1 with rfl | rfl <;>
    rcases h2 with rfl | rfl <;> rcases h3 with rfl | rfl <;>
    rcases h4 with rfl | rfl <;> rcases h5 with rfl | rfl <;>
    rcases h6 with rfl | rfl <;> rcases h7 with rfl | rfl <;> decide

theorem unpack_pack :
    ∀ (n : Nat) (bits : List Char), bits.length ≤ n → ValidBits bits →
      bits.length % 8 = 0 → unpackBits (packBits bits) = bits := by
  intro n
  induction n with
  | zero =>
    intro bits hlen _ _
    rcases bits with _ | ⟨c, bits⟩
    · rfl
    · simp at hlen
  | succ n ih =>
    intro bits hlen hv h8
    rcases bits with _ | ⟨c0, bits⟩
    · rfl
    · rcases bits with _ | ⟨c1, bits⟩
      · simp at h8
      · rcases bits with _ | ⟨c2, bits⟩
        · simp at h8
        · rcases bits with _ | ⟨c3, bits⟩
          · simp at h8
          · rcases bits with _ | ⟨c4, bits⟩
            · simp at h8
            · rcases bits with _ | ⟨c5, bits⟩
              · simp at h8
              · rcases bits with _ | ⟨c6, bits⟩
                · simp at h8
                · rcases bits with _ | ⟨c7, bits⟩
                  · simp at h8
                  · rcases bits with _ | ⟨c8, rest⟩
                    · rw [packBits_cons]
                      have ht : (c0 :: c1 :: c2 :: c3 :: c4 :: c5 :: c6 ::
                          c7 :: ([] : List Char)).take 8 =
                          [c0, c1, c2, c3, c4, c5, c6, c7] := rfl
                      have hd : (c0 :: c1 :: c2 :: c3 :: c4 :: c5 :: c6 ::
                          c7 :: ([] : List Char)).drop 8 = [] := rfl
                      rw [ht, hd, packBits_nil]
                      rw [unpackBits, List.flatMap_cons, List.flatMap_nil]
                      rw [byteBits_foldl c0 c1 c2 c3 c4 c5 c6 c7
                        (hv c0 (by simp)) (hv c1 (by simp)) (hv c2 (by simp))
                        (hv c3 (by simp)) (hv c4 (by simp)) (hv c5 (by simp))
                        (hv c6 (by simp)) (hv c7 (by simp))]
                      rfl
                    · rw [packBits_cons]
                      have ht : (c0 :: c1 :: c2 :: c3 :: c4 :: c5 :: c6 ::
                          c7 :: c8 :: rest).take 8 =
                          [c0, c1, c2, c3, c4, c5, c6, c7] := rfl
                      have hd : (c0 :: c1 :: c2 :: c3 :: c4 :: c5 :: c6 ::
                          c7 :: c8 :: rest).drop 8 = c8 :: rest := rfl
                      rw [ht, hd]
                      rw [unpackBits, List.flatMap_cons]
                      rw [byteBits_foldl c0 c1 c2 c3 c4 c5 c6 c7
                        (hv c0 (by simp)) (hv c1 (by simp)) (hv c2 (by simp))
                        (hv c3 (by simp)) (hv c4 (by simp)) (hv c5 (by simp))
                        (hv c6 (by simp)) (hv c7 (by simp))]
                      have hrec : unpackBits (packBits (c8 :: rest)) =
                          c8 :: rest := by
                        refine ih (c8 :: rest) ?_ ?_ ?_
                        · simp only [List.length_cons] at hlen ⊢
                          omega
                        · intro c hc
                          exact hv c (by simp [List.mem_cons] at hc ⊢; tauto)
                        · simp only [List.length_cons] at h8 ⊢
                          omega
                      rw [← unpackBits, hrec]
                      rfl

theorem length_packBits :
    ∀ (n : Nat) (bits : List Char), bits.length ≤ n →
      (packBits bits).length = (bits.length + 7) / 8 := by
  intro n
  induction n with
  | zero =>
    intro bits hlen
    rcases bits with _ | ⟨c, bits⟩
    · rfl
    · simp at hlen
  | succ n ih =>
    intro bits hlen
    rcases bits with _ | ⟨c, bits⟩
    · rfl
    · rw [packBits_cons, List.length_cons]
      simp only [List.length_cons] at hlen
      have hih := ih ((c :: bits).drop 8)
        (by rw [List.length_drop]; simp only [List.length_cons]; omega)
      rw [hih, List.length_drop]
      simp only [List.length_cons]
      omega

/-! ### Frequency-sum lemmas -/

theorem sum_map_add (l : List Nat) (f g : Nat → Nat) :
    (l.map (fun x => f x + g x)).sum = (l.map f).sum + (l.map g).sum := by
  induction l with
  | nil => rfl
  | cons x l ih =>
    simp only [List.map_cons, List.sum_cons, ih]
    omega

theorem sum_ite_range (c : Nat) :
    ∀ n : Nat, ((List.range n).map
      (fun b => if c == b then 1 else 0)).sum = if c < n then 1 else 0 := by
  intro n
  induction n with
  | zero => rfl
  | succ n ih =>
    rw [List.range_succ, List.map_append, List.sum_append, ih]
    by_cases hc : c < n
    · rw [if_pos hc, if_pos (by omega)]
      have hcn : (c == n) = false := by
        simp only [beq_eq_false_iff_ne, ne_eq]
        omega
      simp only [List.map_cons, List.map_nil, List.sum_cons, List.sum_nil,
        hcn, if_false]
      simp
    · by_cases hc2 : c = n
      · subst hc2
        rw [if_neg hc, if_pos (by omega)]
        simp
      · rw [if_neg hc, if_neg (by omega)]
        have hcn : (c == n) = false := by
          simp only [beq_eq_false_iff_ne, ne_eq]
          omega
        simp only [List.map_cons, List.map_nil, List.sum_cons, List.sum_nil,
          hcn, if_false]
        simp

theorem sum_counts_range (B : List Nat) (h : ∀ c ∈ B, c < 256) :
    ((List.range 256).map (fun b => B.count b)).sum = B.length := by
  induction B with
  | nil =>
    rw [List.length_nil]
    refine List.sum_eq_zero ?_
    intro x hx
    rcases List.mem_map.mp hx with ⟨b, _, rfl⟩
    simp
  | cons c B ih =>
    have hc : c < 256 := h c (by simp)
    have hmap : ((List.range 256).map (fun b => (c :: B).count b)) =
        ((List.range 256).map
          (fun b => B.count b + if c == b then 1 else 0)) := by
      refine List.map_congr_left ?_
      intro b _
      rw [List.count_cons]
    rw [hmap, sum_map_add, ih (fun x hx => h x (by simp [hx])),
      sum_ite_range c 256, if_pos hc]
    simp

theorem sum_snd_filterMap_count (B : List Nat) :
    ∀ l : List Nat,
      ((l.filterMap
        (fun b => if 0 < B.count b then some (b, B.count b) else none)).map
          (fun q => q.2)).sum = (l.map (fun b => B.count b)).sum := by
  intro l
  induction l with
  | nil => rfl
  | cons x l ih =>
    rw [List.filterMap_cons]
    by_cases hc : 0 < B.count x
    · rw [if_pos hc]
      simp only [List.map_cons, List.sum_cons, ih]
    · rw [if_neg hc]
      simp only [List.map_cons, List.sum_cons, ih]
      omega

theorem sum_freqPairs (B : List Nat) (h : ∀ c ∈ B, c < 256) :
    ((freqPairs B).map (fun q => q.2)).sum = B.length := by
  rw [freqPairs, sum_snd_filterMap_count, sum_counts_range B h]

/-! ### Bridging lemmas between the pipeline and the claims -/

theorem length_flatMap_chars (l : List Nat) (f : Nat → List Char) :
    (l.flatMap f).length = (l.map (fun a => (f a).length)).sum := by
  induction l with
  | nil => rfl
  | cons x l ih =>
    rw [List.flatMap_cons, List.length_append, ih]
    simp

theorem flatMap_congr_mem {l : List Nat} {f g : Nat → List Char}
    (h : ∀ x ∈ l, f x = g x) : l.flatMap f = l.flatMap g := by
  induction l with
  | nil => rfl
  | cons x l ih =>
    rw [List.flatMap_cons, List.flatMap_cons, h x (by simp),
      ih (fun y hy => h y (by simp [hy]))]

theorem isLeafB_true_elim {t : NodeRef} (h : isLeafB t = true) :
    ∃ d f, t = NodeRef.node d f .null .null := by
  rcases t with _ | ⟨d, f, l, r⟩
  · exact absurd h (by simp [isLeafB])
  · rw [isLeafB] at h
    by_cases hc : l = NodeRef.null ∧ r = NodeRef.null
    · exact ⟨d, f, by rw [hc.1, hc.2]⟩
    · rw [if_neg hc] at h
      exact absurd h (by simp)

theorem buildTree_of_empty {B : List Nat} (h : freqPairs B = []) :
    buildTree B = NodeRef.null := by
  rw [buildTree, treeOfFreqs, h]
  exact treeOf_nil

theorem huffmanCodes_of_empty {B : List Nat} (h : freqPairs B = []) :
    huffmanCodes B = [] := by
  rw [huffmanCodes, buildTree_of_empty h]
  rfl

theorem buildTree_of_single {B : List Nat} {b m : Nat}
    (h : freqPairs B = [(b, m)]) : buildTree B = mkLeaf b m := by
  rw [buildTree, treeOfFreqs, h]
  have h1 : initialLeaves [(b, m)] = [mkLeaf b m] := rfl
  have h2 : sortForest [mkLeaf b m] = [mkLeaf b m] := rfl
  rw [h1, h2, treeOf_single]

theorem huffmanCodes_of_single {B : List Nat} {b m : Nat}
    (h : freqPairs B = [(b, m)]) : huffmanCodes B = [(b, ['0'])] := by
  rw [huffmanCodes, buildTree_of_single h, table_leaf]

theorem lookup_huffmanCodes_internal {B : List Nat}
    (hfp : freqPairs B ≠ []) (hnl : isLeafB (buildTree B) = false) (a : Nat) :
    ((huffmanCodes B).lookup a) =
      if a ∈ datas (buildTree B) then some (pathToLeaf (buildTree B) a)
      else none := by
  rw [huffmanCodes]
  exact lookup_table_internal (buildTree_wf hfp) (buildTree_nodup hfp) hnl a

theorem codeOf_eq_path {B : List Nat} (hfp : freqPairs B ≠ [])
    (hnl : isLeafB (buildTree B) = false) {a : Nat}
    (ha : a ∈ datas (buildTree B)) :
    codeOf (huffmanCodes B) a = pathToLeaf (buildTree B) a := by
  rw [codeOf, lookup_huffmanCodes_internal hfp hnl a, if_pos ha]
  rfl

theorem codeOf_ne_nil {B : List Nat} {c : Nat} (hc : c ∈ B) (hlt : c < 256) :
    codeOf (huffmanCodes B) c ≠ [] := by
  have hfp : freqPairs B ≠ [] := freqPairs_ne_nil hc hlt
  have hmem : c ∈ datas (buildTree B) :=
    (mem_datas_buildTree hfp c).mpr ⟨hlt, List.count_pos_iff.mpr hc⟩
  cases hlb : isLeafB (buildTree B) with
  | false =>
    rw [codeOf_eq_path hfp hlb hmem]
    rcases hT : buildTree B with _ | ⟨d, f, l, r⟩
    · exact absurd (buildTree_wf hfp) (by rw [hT]; simp [wf])
    · rw [hT, isLeafB] at hlb
      by_cases hnul : l = NodeRef.null ∧ r = NodeRef.null
      · rw [if_pos hnul] at hlb
        exact absurd hlb (by simp)
      · exact pathToLeaf_ne_nil hnul c
  | true =>
    rcases isLeafB_true_elim hlb with ⟨d, f, hT⟩
    have : huffmanCodes B = [(d, ['0'])] := by
      rw [huffmanCodes, hT]
      exact table_leaf d f
    rw [this]
    have hcd : c = d := by
      rw [hT] at hmem
      rw [datas, if_pos (by simp)] at hmem
      simpa using hmem
    subst hcd
    rw [codeOf]
    simp [List.lookup_cons]

theorem encodedText_eq_paths {B : List Nat} (hfp : freqPairs B ≠ [])
    (hnl : isLeafB (buildTree B) = false) (hbytes : ∀ c ∈ B, c < 256) :
    encodedText B = B.flatMap (pathToLeaf (buildTree B)) := by
  rw [encodedText_eq_flatMap]
  refine flatMap_congr_mem ?_
  intro c hc
  exact codeOf_eq_path hfp hnl
    ((mem_datas_buildTree hfp c).mpr
      ⟨hbytes c hc, List.count_pos_iff.mpr hc⟩)

theorem encodedText_length_pos {B : List Nat} (hB : B ≠ [])
    (hbytes : ∀ c ∈ B, c < 256) : 0 < (encodedText B).length := by
  rcases B with _ | ⟨c, rest⟩
  · exact absurd rfl hB
  · rw [encodedText_eq_flatMap, List.flatMap_cons, List.length_append]
    have := codeOf_ne_nil (B := c :: rest) (c := c) (by simp)
      (hbytes c (by simp))
    have hpos : 0 < (codeOf (huffmanCodes (c :: rest)) c).length :=
      List.length_pos.mpr this
    omega

theorem buildTree_internal_struct {B : List Nat} (hfp : freqPairs B ≠ [])
    (hnl : isLeafB (buildTree B) = false) :
    ∃ d f l r, buildTree B = NodeRef.node d f l r ∧
      ¬ (l = NodeRef.null ∧ r = NodeRef.null) := by
  rcases hT : buildTree B with _ | ⟨d, f, l, r⟩
  · exact absurd (buildTree_wf hfp) (by rw [hT]; simp [wf])
  · refine ⟨d, f, l, r, rfl, ?_⟩
    intro hc
    rw [hT, isLeafB, if_pos hc] at hnl
    exact absurd hnl (by simp)

/-! ### Key uniqueness of the code table -/

theorem mem_keys_iff_lookup_isSome (m : List (Nat × List Char)) (k : Nat) :
    k ∈ m.map Prod.fst ↔ (m.lookup k).isSome = true := by
  induction m with
  | nil => simp
  | cons kv m ih =>
    obtain ⟨ak, av⟩ := kv
    by_cases hk : k = ak
    · subst hk
      simp [List.lookup_cons]
    · rw [List.map_cons, List.mem_cons, List.lookup_cons,
        beq_false_of_ne hk]
      simp only [hk, false_or]
      exact ih

theorem keys_setCode_of_isSome {m : List (Nat × List Char)} {k : Nat}
    (v : List Char) (h : (m.lookup k).isSome = true) :
    (setCode m k v).map Prod.fst = m.map Prod.fst := by
  rw [setCode, if_pos h, List.map_map]
  refine List.map_congr_left ?_
  intro p _
  by_cases hp : p.1 = k
  · simp [hp]
  · simp [hp]

theorem keys_setCode_of_none {m : List (Nat × List Char)} {k : Nat}
    (v : List Char) (h : ¬ (m.lookup k).isSome = true) :
    (setCode m k v).map Prod.fst = m.map Prod.fst ++ [k] := by
  rw [setCode, if_neg h]
  simp

theorem nodup_keys_setCode (m : List (Nat × List Char)) (k : Nat)
    (v : List Char) (h : (m.map Prod.fst).Nodup) :
    ((setCode m k v).map Prod.fst).Nodup := by
  by_cases hs : (m.lookup k).isSome = true
  · rw [keys_setCode_of_isSome v hs]
    exact h
  · rw [keys_setCode_of_none v hs]
    refine List.nodup_append.mpr ⟨h, by simp, ?_⟩
    intro x hx hx2
    rcases List.mem_singleton.mp hx2 with rfl
    exact hs ((mem_keys_iff_lookup_isSome m x).mp hx)

theorem generateCodes_keys_nodup :
    ∀ (t : NodeRef) (p : List Char) (m : List (Nat × List Char)),
      (m.map Prod.fst).Nodup →
      ((generateCodes t p m).map Prod.fst).Nodup := by
  intro t
  induction t with
  | null => intro p m h; exact h
  | node d f l r ihl ihr =>
    intro p m h
    rw [generateCodes]
    by_cases hlf : l = NodeRef.null ∧ r = NodeRef.null
    · rw [if_pos hlf]
      by_cases hp : p = []
      · rw [if_pos hp]
        exact nodup_keys_setCode m d ['0'] h
      · rw [if_neg hp]
        exact nodup_keys_setCode m d p h
    · rw [if_neg hlf]
      exact ihr _ _ (ihl _ _ h)

theorem lookup_of_mem_nodup :
    ∀ {m : List (Nat × List Char)}, (m.map Prod.fst).Nodup →
      ∀ {k : Nat} {v : List Char}, (k, v) ∈ m → m.lookup k = some v := by
  intro m
  induction m with
  | nil => intro _ k v hm; exact absurd hm (by simp)
  | cons kv m ih =>
    intro hnd k v hm
    obtain ⟨ak, av⟩ := kv
    rw [List.map_cons] at hnd
    rcases List.pairwise_cons.mp hnd with ⟨hak, hnd2⟩
    rcases List.mem_cons.mp hm with heq | hm2
    · injection heq with h1 h2
      subst h1
      subst h2
      simp [List.lookup_cons]
    · have hkak : k ≠ ak := by
        intro hc
        subst hc
        exact hak k (List.mem_map.mpr ⟨(k, v), hm2, rfl⟩) rfl
      rw [List.lookup_cons, beq_false_of_ne hkak]
      exact ih hnd2 hm2

theorem mem_huffmanCodes_lookup {B : List Nat} {k : Nat} {v : List Char}
    (hm : (k, v) ∈ huffmanCodes B) : (huffmanCodes B).lookup k = some v :=
  lookup_of_mem_nodup
    (generateCodes_keys_nodup (buildTree B) [] [] (by simp)) hm

theorem lookup_singleton_some {a d : Nat} {v w : List Char}
    (h : List.lookup a [(d, v)] = some w) : a = d ∧ w = v := by
  by_cases had : a = d
  · subst had
    rw [List.lookup_cons] at h
    simp only [beq_self_eq_true] at h
    injection h with h2
    exact ⟨rfl, h2.symm⟩
  · rw [List.lookup_cons, beq_false_of_ne had] at h
    exact absurd h (by simp [List.lookup])

/-! ### Further helpers for the truncation theorem -/

theorem buildTree_eq (B : List Nat) :
    treeOfFreqs (freqPairs B) = buildTree B := rfl

theorem sum_map_one (l : List Nat) : (l.map (fun _ => 1)).sum = l.length := by
  induction l with
  | nil => rfl
  | cons x l ih =>
    simp only [List.map_cons, List.sum_cons, ih, List.length_cons]
    omega

theorem codeOf_valid (B : List Nat) (c : Nat) :
    ValidBits (codeOf (huffmanCodes B) c) := by
  by_cases hfp : freqPairs B = []
  · rw [codeOf, huffmanCodes_of_empty hfp]
    intro x hx
    exact absurd hx (by simp [List.lookup])
  · cases hlb : isLeafB (buildTree B) with
    | true =>
      rcases isLeafB_true_elim hlb with ⟨d, f, hT⟩
      have htab : huffmanCodes B = [(d, ['0'])] := by
        rw [huffmanCodes, hT]
        exact table_leaf d f
      rw [codeOf, htab]
      rcases hl : List.lookup c [(d, ['0'])] with _ | v
      · intro x hx
        exact absurd hx (by simp)
      · rcases lookup_singleton_some hl with ⟨rfl, rfl⟩
        intro x hx
        rcases List.mem_singleton.mp hx with rfl
        exact Or.inl rfl
    | false =>
      rw [codeOf, lookup_huffmanCodes_internal hfp hlb c]
      by_cases hm : c ∈ datas (buildTree B)
      · rw [if_pos hm]
        exact pathToLeaf_valid c
      · rw [if_neg hm]
        intro x hx
        exact absurd hx (by simp)

theorem paddedBits_valid (B : List Nat) : ValidBits (paddedBits B) := by
  intro x hx
  rw [paddedBits, encodedText_eq_flatMap] at hx
  rcases List.mem_append.mp hx with hx1 | hx2
  · rcases List.mem_flatMap.mp hx1 with ⟨c, _, hmem⟩
    exact codeOf_valid B c x hmem
  · exact Or.inl (List.eq_of_mem_replicate hx2)

theorem paddedBits_length_mod (B : List Nat) :
    (paddedBits B).length % 8 = 0 := by
  rw [paddedBits, List.length_append, List.length_replicate, padCount]
  omega

theorem codeOf_leaf_all {B : List Nat} (hfp : freqPairs B ≠ [])
    {d f : Nat} (hT : buildTree B = NodeRef.node d f .null .null)
    {c : Nat} (hc : c ∈ B) (hlt : c < 256) :
    codeOf (huffmanCodes B) c = ['0'] := by
  have htab : huffmanCodes B = [(d, ['0'])] := by
    rw [huffmanCodes, hT]
    exact table_leaf d f
  have hmem : c ∈ datas (buildTree B) :=
    (mem_datas_buildTree hfp c).mpr ⟨hlt, List.count_pos_iff.mpr hc⟩
  have hcd : c = d := by
    rw [hT, datas, if_pos (by simp)] at hmem
    simpa using hmem
  subst hcd
  rw [codeOf, htab]
  simp [List.lookup_cons]

theorem encodedText_leaf_length {B : List Nat} (hfp : freqPairs B ≠ [])
    {d f : Nat} (hT : buildTree B = NodeRef.node d f .null .null)
    (hbytes : ∀ c ∈ B, c < 256) :
    (encodedText B).length = B.length := by
  rw [encodedText_eq_flatMap, length_flatMap_chars]
  have hcongr : B.map (fun c => (codeOf (huffmanCodes B) c).length) =
      B.map (fun _ => 1) := by
    refine List.map_congr_left ?_
    intro c hc
    rw [codeOf_leaf_all hfp hT hc (hbytes c hc)]
    rfl
  rw [hcongr, sum_map_one]

theorem decompressM_parsed {input : List Nat} {pairs : List (Nat × Nat)}
    {pad : Nat} {payload : List Nat} (hne : input ≠ [])
    (hp : parseHeader input = .ok (pairs, pad, payload)) :
    decompressM input =
      (if pairs = [] then Except.ok [] else
        if (unpackBits payload).length < pad then
          Except.error FormatError.badPayload
        else
          if (treeOfFreqs pairs).isLeafB then
            (if ((unpackBits payload).take
                ((unpackBits payload).length - pad)).length =
                (pairs.map (fun q => q.2)).sum then
              Except.ok (((unpackBits payload).take
                ((unpackBits payload).length - pad)).map
                  (fun _ => (treeOfFreqs pairs).dataOf))
            else Except.error FormatError.countMismatch)
          else
            match decodeAux (treeOfFreqs pairs) (treeOfFreqs pairs)
                ((unpackBits payload).take
                  ((unpackBits payload).length - pad)) with
            | none => Except.error FormatError.badPayload
            | some (out, q) =>
              if q = treeOfFreqs pairs then
                if out.length = (pairs.map (fun q => q.2)).sum then
                  Except.ok out
                else Except.error FormatError.countMismatch
              else Except.error FormatError.exhausted) := by
  rw [decompressM, if_neg hne, hp]

/-! ### The claims -/

/-- C1.  The claim states that decompressing the result of compressing any
byte sequence — including one distinct byte repeated — yields the original.
The code refutes it: for the input "aaaa" (byte 97 four times) the encoder
produces the bits "0000", but the decode loop steps from the single-leaf
root to its null left child and then calls `isLeaf()` on that null pointer,
so decoding fails (modelled as `none`) instead of returning the input. -/
theorem C1_roundtrip_single_byte_failure :
    encodedText [97, 97, 97, 97] = ['0', '0', '0', '0'] ∧
    decodedText [97, 97, 97, 97] = none :=
  ⟨by decide, by decide⟩

/-- C2.  For every non-empty input, the generated code table is prefix-free
(no byte's code is a prefix of a different byte's code) and every stored
code is a non-empty bit string. -/
theorem C2_prefix_free_and_nonempty (B : List Nat) (hB : B ≠ []) :
    prefixFreeTable (huffmanCodes B) = true := by
  simp only [prefixFreeTable, List.all_eq_true, Bool.and_eq_true,
    Bool.or_eq_true, decide_eq_true_eq]
  intro p hp
  by_cases hfp : freqPairs B = []
  · rw [huffmanCodes_of_empty hfp] at hp
    exact absurd hp (by simp)
  · cases hlb : isLeafB (buildTree B) with
    | true =>
      rcases isLeafB_true_elim hlb with ⟨d, f, hT⟩
      have htab : huffmanCodes B = [(d, ['0'])] := by
        rw [huffmanCodes, hT]
        exact table_leaf d f
      rw [htab] at hp
      rcases List.mem_singleton.mp hp with rfl
      refine ⟨by simp, ?_⟩
      intro q hq
      rw [htab] at hq
      rcases List.mem_singleton.mp hq with rfl
      exact Or.inl rfl
    | false =>
      obtain ⟨pk, pv⟩ := p
      have hpl := mem_huffmanCodes_lookup hp
      rw [lookup_huffmanCodes_internal hfp hlb pk] at hpl
      by_cases hpm : pk ∈ datas (buildTree B)
      · rw [if_pos hpm] at hpl
        injection hpl with hpv
        rcases buildTree_internal_struct hfp hlb with ⟨d, f, l, r, hT, hlf⟩
        constructor
        · show pv ≠ []
          rw [← hpv, hT]
          exact pathToLeaf_ne_nil hlf pk
        · intro q hq
          obtain ⟨qk, qv⟩ := q
          have hql := mem_huffmanCodes_lookup hq
          rw [lookup_huffmanCodes_internal hfp hlb qk] at hql
          by_cases hqm : qk ∈ datas (buildTree B)
          · rw [if_pos hqm] at hql
            injection hql with hqv
            by_cases hkk : pk = qk
            · exact Or.inl hkk
            · refine Or.inr ?_
              show ¬ pv <+: qv
              rw [← hpv, ← hqv]
              exact pathToLeaf_prefix_free (buildTree_wf hfp) (buildTree_nodup hfp)
                hpm hqm hkk
          · rw [if_neg hqm] at hql
            exact absurd hql (by simp)
      · rw [if_neg hpm] at hpl
        exact absurd hpl (by simp)

/-- C2 witness at the concrete input [0, 1]. -/
theorem C2_witness :
    ([0, 1] : List Nat) ≠ [] ∧
    prefixFreeTable (huffmanCodes [0, 1]) = true :=
  ⟨by decide, C2_prefix_free_and_nonempty [0, 1] (by decide)⟩

/-- C3.  In the generated table, a symbol with strictly greater frequency
never receives a longer code: if `count b < count a` and both symbols have
codes, the code of `a` is no longer than the code of `b`. -/
theorem C3_monotone_code_length (B : List Nat) (a b : Nat)
    (ca cb : List Char)
    (hca : (huffmanCodes B).lookup a = some ca)
    (hcb : (huffmanCodes B).lookup b = some cb)
    (hf : B.count b < B.count a) :
    ca.length ≤ cb.length := by
  by_cases hfp : freqPairs B = []
  · rw [huffmanCodes_of_empty hfp] at hca
    exact absurd hca (by simp)
  · cases hlb : isLeafB (buildTree B) with
    | true =>
      rcases isLeafB_true_elim hlb with ⟨d, f, hT⟩
      have htab : huffmanCodes B = [(d, ['0'])] := by
        rw [huffmanCodes, hT]
        exact table_leaf d f
      rw [htab] at hca hcb
      have ha := (lookup_singleton_some hca).1
      have hb := (lookup_singleton_some hcb).1
      rw [ha, hb] at hf
      omega
    | false =>
      rw [lookup_huffmanCodes_internal hfp hlb a] at hca
      rw [lookup_huffmanCodes_internal hfp hlb b] at hcb
      by_cases ham : a ∈ datas (buildTree B)
      · by_cases hbm : b ∈ datas (buildTree B)
        · rw [if_pos ham] at hca
          rw [if_pos hbm] at hcb
          injection hca with hca2
          injection hcb with hcb2
          have hgood := goodF_initial (freqPairs B)
          have hsorted := sorted_sortForest (initialLeaves (freqPairs B))
          have hnodup := nodupF_initial B
          have hne := initial_forest_ne_nil hfp
          have hamem : mkLeaf a (B.count a) ∈
              sortForest (initialLeaves (freqPairs B)) := by
            refine (sortForest_perm _).mem_iff.mpr ?_
            refine List.mem_map.mpr ⟨(a, B.count a), ?_, rfl⟩
            have := (mem_datas_buildTree hfp a).mp ham
            exact mem_freqPairs.mpr ⟨this.1, rfl, this.2⟩
          have hbmem : mkLeaf b (B.count b) ∈
              sortForest (initialLeaves (freqPairs B)) := by
            refine (sortForest_perm _).mem_iff.mpr ?_
            refine List.mem_map.mpr ⟨(b, B.count b), ?_, rfl⟩
            have := (mem_datas_buildTree hfp b).mp hbm
            exact mem_freqPairs.mpr ⟨this.1, rfl, this.2⟩
          have hsub : [mkLeaf b (B.count b), mkLeaf a (B.count a)] <+
              sortForest (initialLeaves (freqPairs B)) :=
            pair_sublist_of_lt hsorted hbmem hamem hf
          obtain ⟨cA, hOa⟩ := offset_exists _ _ (le_refl _) hgood hnodup
            _ hamem
          obtain ⟨cB, hOb⟩ := offset_exists _ _ (le_refl _) hgood hnodup
            _ hbmem
          have hQ := (greedy_main _ _ (le_refl _) hne hsorted hgood
            hnodup).1 _ _ cB cA hsub hOb hOa
          have hda : depthOfData (buildTree B) a = some (0 + cA) :=
            hOa a 0 (by rw [mkLeaf, depthOfData, if_pos (by simp),
              if_pos rfl])
          have hdb : depthOfData (buildTree B) b = some (0 + cB) :=
            hOb b 0 (by rw [mkLeaf, depthOfData, if_pos (by simp),
              if_pos rfl])
          have hla : depthOfData (buildTree B) a =
              some (pathToLeaf (buildTree B) a).length :=
            pathToLeaf_length (buildTree_wf hfp) (buildTree_nodup hfp) ham
          have hlb2 : depthOfData (buildTree B) b =
              some (pathToLeaf (buildTree B) b).length :=
            pathToLeaf_length (buildTree_wf hfp) (buildTree_nodup hfp) hbm
          rw [hda] at hla
          rw [hdb] at hlb2
          injection hla with h1
          injection hlb2 with h2
          rw [← hca2, ← hcb2, ← h1, ← h2]
          omega
        · rw [if_neg hbm] at hcb
          exact absurd hcb (by simp)
      · rw [if_neg ham] at hca
        exact absurd hca (by simp)

/-- C3 witness at the concrete input [0, 0, 1]: byte 0 has frequency 2 and
code "1", byte 1 has frequency 1 and code "0". -/
theorem C3_witness :
    (huffmanCodes [0, 0, 1]).lookup 0 = some ['1'] ∧
    (huffmanCodes [0, 0, 1]).lookup 1 = some ['0'] ∧
    ([0, 0, 1] : List Nat).count 1 < ([0, 0, 1] : List Nat).count 0 ∧
    (['1'] : List Char).length ≤ (['0'] : List Char).length :=
  ⟨by decide, by decide, by decide,
    C3_monotone_code_length [0, 0, 1] 0 1 ['1'] ['0']
      (by decide) (by decide) (by decide)⟩

/-- C4.  The (spec-modelled) padded payload is the concatenation of the
input bytes' codes in order followed by zero pad bits; the payload bit
length is the sum of the code lengths; and the pad count is
`(8 − payload_bit_length mod 8) mod 8`. -/
theorem C4_payload_layout (B : List Nat) (hB : B ≠ []) :
    paddedBits B =
      B.flatMap (codeOf (huffmanCodes B)) ++
        List.replicate (padCount B) '0' ∧
    (encodedText B).length =
      (B.map (fun c => (codeOf (huffmanCodes B) c).length)).sum ∧
    padCount B =
      (8 - (B.map (fun c => (codeOf (huffmanCodes B) c).length)).sum % 8)
        % 8 := by
  have h1 := encodedText_eq_flatMap B
  have h2 : (encodedText B).length =
      (B.map (fun c => (codeOf (huffmanCodes B) c).length)).sum := by
    rw [h1, length_flatMap_chars]
  exact ⟨by rw [paddedBits, h1], h2, by rw [padCount, h2]⟩

/-- C4 witness at the concrete input [0, 1]. -/
theorem C4_witness :
    paddedBits [0, 1] =
      ([0, 1] : List Nat).flatMap (codeOf (huffmanCodes [0, 1])) ++
        List.replicate (padCount [0, 1]) '0' ∧
    (encodedText [0, 1]).length =
      (([0, 1] : List Nat).map
        (fun c => (codeOf (huffmanCodes [0, 1]) c).length)).sum ∧
    padCount [0, 1] =
      (8 - (([0, 1] : List Nat).map
        (fun c => (codeOf (huffmanCodes [0, 1]) c).length)).sum % 8) % 8 :=
  C4_payload_layout [0, 1] (by decide)

/-- C5.  Decompressing a valid compressed output with its last byte
truncated always fails with a `FormatError` (the payload is then
inconsistent with the header's declared frequencies and pad count), rather
than silently returning wrong data. -/
theorem C5_truncation_detected (B : List Nat) (hB : B ≠ [])
    (hbytes : ∀ c ∈ B, c < 256) (hlen : B.length < 4294967296) :
    isFormatError (decompressM ((compressM B).dropLast)) = true := by
  obtain ⟨c0, hc0⟩ := List.exists_mem_of_ne_nil B hB
  have hfp : freqPairs B ≠ [] := freqPairs_ne_nil hc0 (hbytes c0 hc0)
  have hvalid := paddedBits_valid B
  have hmod := paddedBits_length_mod B
  have hLpos : 0 < (encodedText B).length := encodedText_length_pos hB hbytes
  have hpblen : (paddedBits B).length =
      (encodedText B).length + padCount B := by
    rw [paddedBits, List.length_append, List.length_replicate]
  have hpad7 : padCount B ≤ 7 := padCount_le B
  have hpb8 : 8 ≤ (paddedBits B).length := by omega
  have hbytesLen : (packBits (paddedBits B)).length =
      (paddedBits B).length / 8 := by
    rw [length_packBits (paddedBits B).length _ (le_refl _)]
    omega
  have hkpos : 1 ≤ (packBits (paddedBits B)).length := by
    rw [hbytesLen]
    omega
  have hbne : packBits (paddedBits B) ≠ [] := by
    intro hc
    rw [hc] at hkpos
    simp at hkpos
  have hdrop : (compressM B).dropLast =
      headerBytes B ++ (packBits (paddedBits B)).dropLast := by
    rw [compressM, if_neg hB]
    exact List.dropLast_append_of_ne_nil (headerBytes B) hbne
  have hinput_ne : headerBytes B ++ (packBits (paddedBits B)).dropLast ≠
      [] := by
    simp [headerBytes, toBytes4]
  have hparse := parseHeader_roundtrip
    ((packBits (paddedBits B)).dropLast) hlen
  rw [hdrop, decompressM_parsed hinput_ne hparse, if_neg hfp, buildTree_eq]
  have htot := sum_freqPairs B hbytes
  have hup : unpackBits (packBits (paddedBits B)) = paddedBits B :=
    unpack_pack (paddedBits B).length _ (le_refl _) hvalid hmod
  have hsplitb := List.dropLast_concat_getLast hbne
  have htake : unpackBits ((packBits (paddedBits B)).dropLast) =
      (paddedBits B).take (8 * ((packBits (paddedBits B)).length - 1)) := by
    have h1 := unpackBits_take_front ((packBits (paddedBits B)).dropLast)
      ((packBits (paddedBits B)).getLast hbne)
    rw [hsplitb, hup] at h1
    rw [← h1, List.length_dropLast]
  rw [htake, htot]
  have hpbK : (paddedBits B).length = 8 * (packBits (paddedBits B)).length := by
    rw [hbytesLen]
    omega
  have hbl : ((paddedBits B).take
      (8 * ((packBits (paddedBits B)).length - 1))).length =
      8 * ((packBits (paddedBits B)).length - 1) := by
    rw [List.length_take]
    omega
  rw [hbl]
  have hBpos : 0 < B.length := List.length_pos.mpr hB
  rcases Nat.lt_or_ge (packBits (paddedBits B)).length 2 with hK1 | hK2
  · -- exactly one payload byte: the truncated payload is empty
    have hK : (packBits (paddedBits B)).length = 1 := by omega
    rw [hK]
    simp only [Nat.sub_self, Nat.mul_zero, List.take_zero]
    by_cases hp0 : 0 < padCount B
    · rw [if_pos (by simpa using hp0)]
      rfl
    · have hp0' : padCount B = 0 := by omega
      rw [if_neg (by simp [hp0'])]
      simp only [List.length_nil, Nat.zero_sub, List.take_nil]
      cases hlb : isLeafB (buildTree B) with
      | true =>
        rw [if_pos rfl, if_neg (by omega)]
        rfl
      | false =>
        rw [if_neg (by simp)]
        simp only [decodeAux_nil]
        rw [if_pos trivial, if_neg (by simp only [List.length_nil]; omega)]
        rfl
  · -- at least two payload bytes: eight data bits are lost
    have hnotlt : ¬ (8 * ((packBits (paddedBits B)).length - 1) <
        padCount B) := by omega
    rw [if_neg hnotlt]
    have hm0 : 8 * ((packBits (paddedBits B)).length - 1) - padCount B =
        (encodedText B).length - 8 := by omega
    rw [List.take_take, min_eq_left (by omega), hm0]
    have hz : (encodedText B).length - 8 - (encodedText B).length = 0 := by
      omega
    have htkpb : (paddedBits B).take ((encodedText B).length - 8) =
        (encodedText B).take ((encodedText B).length - 8) := by
      rw [paddedBits, List.take_append_eq_append_take, hz, List.take_zero,
        List.append_nil]
    rw [htkpb]
    have hdblen : ((encodedText B).take
        ((encodedText B).length - 8)).length =
        (encodedText B).length - 8 := by
      rw [List.length_take]
      omega
    have hL9 : 9 ≤ (encodedText B).length := by omega
    cases hlb : isLeafB (buildTree B) with
    | true =>
      rw [if_pos rfl]
      rcases isLeafB_true_elim hlb with ⟨d, f, hT⟩
      have hLB : (encodedText B).length = B.length :=
        encodedText_leaf_length hfp hT hbytes
      rw [if_neg (by rw [hdblen]; omega)]
      rfl
    | false =>
      rw [if_neg (by simp)]
      have hpaths := encodedText_eq_paths hfp hlb hbytes
      have hmem : ∀ s ∈ B, s ∈ datas (buildTree B) := by
        intro s hs
        exact (mem_datas_buildTree hfp s).mpr
          ⟨hbytes s hs, List.count_pos_iff.mpr hs⟩
      have hmlt : (encodedText B).length - 8 <
          (B.flatMap (pathToLeaf (buildTree B))).length := by
        rw [← hpaths]
        omega
      obtain ⟨out, q, hdec, hout⟩ := decodeAux_take (buildTree_wf hfp)
        hlb (buildTree_nodup hfp) B hmem
        ((encodedText B).length - 8) hmlt
      rw [hpaths] at *
      simp only [hdec]
      by_cases hq : q = buildTree B
      · rw [if_pos hq, if_neg (by omega)]
        rfl
      · rw [if_neg hq]
        rfl

/-- C5 witness at the concrete input [0, 1]: the compressed output has one
payload byte; dropping it makes the pad count exceed the available bits. -/
theorem C5_witness :
    ([0, 1] : List Nat) ≠ [] ∧
    ([0, 1] : List Nat).length < 4294967296 ∧
    isFormatError (decompressM ((compressM [0, 1]).dropLast)) = true :=
  ⟨by decide, by decide,
    C5_truncation_detected [0, 1] (by decide) (by decide) (by decide)⟩

/-- C6.  When the frequency mapping has exactly one entry (alphabet of one
distinct byte), the generated table assigns that byte the one-bit code "0"
rather than an empty string. -/
theorem C6_single_symbol_code (B : List Nat) (b m : Nat)
    (h : freqPairs B = [(b, m)]) : huffmanCodes B = [(b, ['0'])] :=
  huffmanCodes_of_single h

/-- C6 witness: the input [5, 5] has the single-entry frequency mapping
[(5, 2)] and receives the table [(5, "0")]. -/
theorem C6_witness :
    freqPairs [5, 5] = [(5, 2)] ∧ huffmanCodes [5, 5] = [(5, ['0'])] :=
  ⟨by decide, C6_single_symbol_code [5, 5] 5 2 (by decide)⟩

/-- C7.  The claim states that with a single-leaf tree every payload bit
emits the single byte.  The code refutes it: on any non-empty bit string the
decode loop immediately steps from the leaf root to a null child and
dereferences it, so decoding fails (modelled as `none`) instead of emitting
one byte per bit. -/
theorem C7_single_leaf_decode_failure (d f : Nat) (bits : List Char)
    (h : bits ≠ []) :
    decodeAux (mkLeaf d f) (mkLeaf d f) bits = none := by
  rcases bits with _ | ⟨bit, bits⟩
  · exact absurd rfl h
  · rw [mkLeaf, decodeAux_cons]
    by_cases hb : bit = '0' <;> simp [hb]

/-- C7 witness: decoding the four payload bits of the "aaaa" example against
its single-leaf tree fails at the first bit. -/
theorem C7_witness :
    (['0', '0', '0', '0'] : List Char) ≠ [] ∧
    decodeAux (mkLeaf 97 4) (mkLeaf 97 4) ['0', '0', '0', '0'] = none :=
  ⟨by decide, C7_single_leaf_decode_failure 97 4 ['0', '0', '0', '0']
    (by decide)⟩

/-- C8.  For every non-empty frequency mapping, the tree builder returns a
full binary tree: every node has either no children (a leaf) or two non-null
children whose frequencies sum to the node's own frequency. -/
theorem C8_full_binary_tree (fm : List (Nat × Nat)) (h : fm ≠ []) :
    wf (treeOfFreqs fm) = true :=
  wf_treeOf (initial_forest_ne_nil h) (goodF_initial fm)

/-- C8 witness at a concrete three-symbol frequency mapping. -/
theorem C8_witness :
    ([(0, 2), (1, 1), (2, 5)] : List (Nat × Nat)) ≠ [] ∧
    wf (treeOfFreqs [(0, 2), (1, 1), (2, 5)]) = true :=
  ⟨by decide, C8_full_binary_tree [(0, 2), (1, 1), (2, 5)] (by decide)⟩

/-- C9.  Compression is deterministic: the embedding is a pure function of
the input bytes, so equal inputs give byte-identical compressed output,
identical encoded text, and identical per-symbol code lengths (the tree is
determined by the frequency mapping alone). -/
theorem C9_deterministic (B₁ B₂ : List Nat) (h : B₁ = B₂) :
    compressM B₁ = compressM B₂ ∧
    encodedText B₁ = encodedText B₂ ∧
    (huffmanCodes B₁).map (fun p => (p.1, p.2.length)) =
      (huffmanCodes B₂).map (fun p => (p.1, p.2.length)) ∧
    treeOfFreqs (freqPairs B₁) = treeOfFreqs (freqPairs B₂) := by
  subst h
  exact ⟨rfl, rfl, rfl, rfl⟩

/-- C9 witness at the concrete input [0, 1]. -/
theorem C9_witness :
    compressM [0, 1] = compressM [0, 1] ∧
    encodedText [0, 1] = encodedText [0, 1] ∧
    (huffmanCodes [0, 1]).map (fun p => (p.1, p.2.length)) =
      (huffmanCodes [0, 1]).map (fun p => (p.1, p.2.length)) ∧
    treeOfFreqs (freqPairs [0, 1]) = treeOfFreqs (freqPairs [0, 1]) :=
  C9_deterministic [0, 1] [0, 1] rfl

/-- C10.  With at least two distinct bytes, decoding any concatenation of
codes from the generated table never steps to a missing child: the decode
loop never hits its null-dereference branches and returns exactly the
encoded symbols, with the cursor back at the root. -/
theorem C10_decode_never_null (B : List Nat)
    (h2 : 2 ≤ (freqPairs B).length) (syms : List Nat)
    (hs : ∀ s ∈ syms, ((huffmanCodes B).lookup s).isSome = true) :
    decodeAux (buildTree B) (buildTree B)
      (syms.flatMap (codeOf (huffmanCodes B))) =
      some (syms, buildTree B) := by
  have hfp : freqPairs B ≠ [] := by
    intro hc
    rw [hc] at h2
    simp at h2
  have hnl := buildTree_not_leaf h2
  have hw := buildTree_wf hfp
  have hnd := buildTree_nodup hfp
  have hmem : ∀ s ∈ syms, s ∈ datas (buildTree B) := by
    intro s hs2
    have hsome := hs s hs2
    rw [lookup_huffmanCodes_internal hfp hnl s] at hsome
    by_cases hm : s ∈ datas (buildTree B)
    · exact hm
    · rw [if_neg hm] at hsome
      exact absurd hsome (by simp)
  have hcodes : syms.flatMap (codeOf (huffmanCodes B)) =
      syms.flatMap (pathToLeaf (buildTree B)) :=
    flatMap_congr_mem (fun s hs2 => codeOf_eq_path hfp hnl (hmem s hs2))
  rw [hcodes]
  exact decodeAux_flatMap hw hnl hnd syms hmem

/-- C10 witness: decoding the concatenation of the codes of [1, 0, 0]
against the table of the input [0, 1]. -/
theorem C10_witness :
    2 ≤ (freqPairs [0, 1]).length ∧
    decodeAux (buildTree [0, 1]) (buildTree [0, 1])
      (([1, 0, 0] : List Nat).flatMap (codeOf (huffmanCodes [0, 1]))) =
      some ([1, 0, 0], buildTree [0, 1]) :=
  ⟨by decide, C10_decode_never_null [0, 1] (by decide) [1, 0, 0]
    (by decide)⟩

end FileZipper
